import Mathlib

/-!
Verification development for the `rust_formula_parser` repository.

The three pipeline stages (`src/lexer.rs`, `src/parser.rs`, `src/processor.rs`)
and the glue entry point (`src/lib.rs`) are shallowly embedded below.
Numeric values are modelled as exact rationals (`ℚ`) idealising the source's
`f64`; all arithmetic appearing in the verified claims is exact in `f64`
as well.  `%` on `f64` (Rust's `Rem`, i.e. C `fmod`) is modelled as
`a - b * trunc (a / b)`.  Division and remainder by zero (IEEE `inf`/`NaN`)
are outside the rational idealisation; no verified claim exercises them.
The character classes used by the lexer are modelled on their ASCII meaning.
-/

set_option maxRecDepth 100000

namespace Formula

/-! ## Tokens (src/lexer.rs, `enum Token`) -/

/-- Mirrors `lexer.rs` `enum Token`.  The numeric payload is `ℚ` in place
of `f64`. -/
inductive Token where
  | WhiteSpace
  | Number (value : ℚ)
  | Property (name : String)
  | Plus
  | Minus
  | Asterisk
  | Slash
  | Percent
  | Equal
  | NotEqual
  | LessThan
  | GreaterThan
  | LessThanOrEqual
  | GreaterThanOrEqual
  | LeftParenthesis
  | RightParenthesis
  | Comma
  deriving DecidableEq

/-- Mirrors `lexer.rs` `struct LexerError`. -/
structure LexerError where
  msg : String
  deriving DecidableEq

/-! ## Character classes (ASCII models of the `char` methods used) -/

/-- ASCII digit, modelling `char::is_numeric` on the inputs the lexer feeds it. -/
def isDigitC (c : Char) : Bool := 48 ≤ c.toNat && c.toNat ≤ 57

/-- ASCII uppercase letter, modelling `char::is_uppercase`. -/
def isUpperC (c : Char) : Bool := 65 ≤ c.toNat && c.toNat ≤ 90

/-- ASCII lowercase letter, modelling `char::is_lowercase`. -/
def isLowerC (c : Char) : Bool := 97 ≤ c.toNat && c.toNat ≤ 122

/-- ASCII letter, modelling `char::is_alphabetic`. -/
def isAlphaC (c : Char) : Bool := isUpperC c || isLowerC c

/-- ASCII whitespace, modelling `char::is_whitespace`. -/
def isWsC (c : Char) : Bool :=
  c.toNat = 32 || c.toNat = 9 || c.toNat = 10 || c.toNat = 11 ||
  c.toNat = 12 || c.toNat = 13

/-! ## Lexer helpers (src/lexer.rs) -/

/-- `Lexer::read_whitespace_tokens`: consume leading whitespace, one
`WhiteSpace` token per character. -/
def readWS : List Char → List Token × List Char
  | [] => ([], [])
  | c :: r =>
    if isWsC c then
      let p := readWS r
      (Token.WhiteSpace :: p.1, p.2)
    else ([], c :: r)

/-- Numeral characters consumed by `Lexer::number`: a leading sign is
accepted only as the very first accumulated character, then digits and dots. -/
def numTake (s : List Char) : List Char :=
  match s with
  | c :: r =>
    if c = '+' ∨ c = '-' then c :: r.takeWhile (fun d => isDigitC d || d = '.')
    else s.takeWhile (fun d => isDigitC d || d = '.')
  | [] => []

/-- Characters left after `numTake`. -/
def numRest (s : List Char) : List Char :=
  match s with
  | c :: r =>
    if c = '+' ∨ c = '-' then r.dropWhile (fun d => isDigitC d || d = '.')
    else s.dropWhile (fun d => isDigitC d || d = '.')
  | [] => []

/-- Value of a digit string. -/
def digitsToNat (l : List Char) : Nat :=
  l.foldl (fun acc c => acc * 10 + (c.toNat - 48)) 0

/-- Model of `str::parse::<f64>` restricted to the character set the lexer
can hand it (optional sign, digits, dots): an optional sign, then digits
with at most one dot and at least one digit in total.  The value is exact
(rational) rather than rounded to binary. -/
def parseNumChars (l : List Char) : Option ℚ :=
  let p : ℚ × List Char :=
    match l with
    | '+' :: r => (1, r)
    | '-' :: r => (-1, r)
    | _ => (1, l)
  let intDigits := p.2.takeWhile isDigitC
  let rest := p.2.dropWhile isDigitC
  match rest with
  | [] =>
    if intDigits.isEmpty then none
    else some (p.1 * (digitsToNat intDigits : ℚ))
  | '.' :: frac =>
    if frac.all isDigitC && decide (0 < intDigits.length + frac.length) then
      some (p.1 * ((digitsToNat intDigits : ℚ) +
        (digitsToNat frac : ℚ) / (10 ^ frac.length)))
    else none
  | _ => none

/-- `Lexer::number`: leading whitespace, numeral characters, the
leading-zero rejection, then the float parse. -/
def lexNumber (s : List Char) : Except LexerError (List Token × List Char) :=
  let w := readWS s
  let cs := numTake w.2
  if 1 < cs.length ∧ cs.head? = some '0' ∧ cs.get? 1 ≠ some '.' then
    .error ⟨"error: invalid numeric string"⟩
  else
    match parseNumChars cs with
    | some q => .ok (w.1 ++ [Token.Number q], numRest w.2)
    | none => .error ⟨"error: invalid float literal"⟩

/-- `Lexer::property`: leading whitespace then one-or-more letters. -/
def lexProperty (s : List Char) : Except LexerError (List Token × List Char) :=
  let w := readWS s
  let p := w.2.takeWhile isAlphaC
  if p.isEmpty then .error ⟨"error: property is empty"⟩
  else .ok (w.1 ++ [Token.Property ⟨p⟩], w.2.dropWhile isAlphaC)

/-- `Lexer::variable` forwards to `Lexer::property`. -/
def lexVariable (s : List Char) : Except LexerError (List Token × List Char) :=
  lexProperty s

/-- `Lexer::read_comparison_operator`: `first` has already been consumed. -/
def readCompOp (first : Char) (s : List Char) :
    Except LexerError (Token × List Char) :=
  if first = '>' ∨ first = '<' then
    match s with
    | [] => .error ⟨"error: unexpected end of line"⟩
    | c :: r =>
      if c = '=' then
        .ok (if first = '>' then Token.GreaterThanOrEqual
             else Token.LessThanOrEqual, r)
      else
        .ok (if first = '>' then Token.GreaterThan else Token.LessThan, c :: r)
  else if first = '=' ∨ first = '!' then
    match s with
    | [] => .error ⟨"error: unexpected end of line"⟩
    | c :: r =>
      if c = '=' then
        .ok (if first = '=' then Token.Equal else Token.NotEqual, r)
      else .error ⟨"error: unexpected char after equal"⟩
  else .error ⟨"error: unexpected char"⟩

/-! ## Lexer recursive descent (fuel-indexed; fuel only bounds the
recursion depth, every result is produced by the faithful transcription
of `expr`/`term`/`factor`/`function`). -/

mutual

/-- `Lexer::expr`: a term followed by the operator loop. -/
def lexExpr : Nat → List Char → Except LexerError (List Token × List Char)
  | 0, _ => .error ⟨"error: out of fuel"⟩
  | fuel + 1, s =>
    match lexTerm fuel s with
    | .error e => .error e
    | .ok (ts, s1) => lexExprLoop fuel ts s1

/-- The loop inside `Lexer::expr`. -/
def lexExprLoop : Nat → List Token → List Char →
    Except LexerError (List Token × List Char)
  | 0, _, _ => .error ⟨"error: out of fuel"⟩
  | fuel + 1, acc, s =>
    let w := readWS s
    let acc1 := acc ++ w.1
    match w.2 with
    | [] => .ok (acc1, [])
    | c :: s2 =>
      if c = '>' ∨ c = '<' ∨ c = '=' ∨ c = '!' then
        match readCompOp c s2 with
        | .error e => .error e
        | .ok (tok, s3) =>
          match lexTerm fuel s3 with
          | .error e => .error e
          | .ok (ts, s4) => lexExprLoop fuel (acc1 ++ [tok] ++ ts) s4
      else if c = '+' ∨ c = '-' then
        match lexTerm fuel s2 with
        | .error e => .error e
        | .ok (ts, s4) =>
          lexExprLoop fuel
            (acc1 ++ [if c = '+' then Token.Plus else Token.Minus] ++ ts) s4
      else .ok (acc1, c :: s2)

/-- `Lexer::term`: a factor followed by the `* / %` loop. -/
def lexTerm : Nat → List Char → Except LexerError (List Token × List Char)
  | 0, _ => .error ⟨"error: out of fuel"⟩
  | fuel + 1, s =>
    match lexFactor fuel s with
    | .error e => .error e
    | .ok (ts, s1) => lexTermLoop fuel ts s1

/-- The loop inside `Lexer::term`.  Note the source consumes `%` here,
together with `*` and `/`. -/
def lexTermLoop : Nat → List Token → List Char →
    Except LexerError (List Token × List Char)
  | 0, _, _ => .error ⟨"error: out of fuel"⟩
  | fuel + 1, acc, s =>
    let w := readWS s
    let acc1 := acc ++ w.1
    match w.2 with
    | [] => .ok (acc1, [])
    | c :: s2 =>
      if c = '*' ∨ c = '/' ∨ c = '%' then
        match lexFactor fuel s2 with
        | .error e => .error e
        | .ok (ts, s3) =>
          lexTermLoop fuel
            (acc1 ++ [if c = '*' then Token.Asterisk
                      else if c = '/' then Token.Slash
                      else Token.Percent] ++ ts) s3
      else .ok (acc1, c :: s2)

/-- `Lexer::factor`. -/
def lexFactor : Nat → List Char → Except LexerError (List Token × List Char)
  | 0, _ => .error ⟨"error: out of fuel"⟩
  | fuel + 1, s =>
    let w := readWS s
    match w.2 with
    | [] => .error ⟨"error: unexpected end of line"⟩
    | c :: s2 =>
      if c = '(' then
        match lexExpr fuel s2 with
        | .error e => .error e
        | .ok (ts, s3) =>
          let w2 := readWS s3
          match w2.2 with
          | [] => .error ⟨"error: unexpected end of line"⟩
          | c2 :: s4 =>
            if c2 = ')' then
              .ok (w.1 ++ [Token.LeftParenthesis] ++ ts ++ w2.1 ++
                   [Token.RightParenthesis], s4)
            else .error ⟨"error: unexpected chars"⟩
      else if isDigitC c || (c = '+' ∨ c = '-') then
        match lexNumber (c :: s2) with
        | .error e => .error e
        | .ok (ts, s3) => .ok (w.1 ++ ts, s3)
      else if isUpperC c then
        match lexFunction fuel (c :: s2) with
        | .error e => .error e
        | .ok (ts, s3) => .ok (w.1 ++ ts, s3)
      else if isLowerC c then
        match lexVariable (c :: s2) with
        | .error e => .error e
        | .ok (ts, s3) => .ok (w.1 ++ ts, s3)
      else .error ⟨"error: unexpected char"⟩

/-- `Lexer::function`: property, `(`, first argument, then the
comma/close loop. -/
def lexFunction : Nat → List Char → Except LexerError (List Token × List Char)
  | 0, _ => .error ⟨"error: out of fuel"⟩
  | fuel + 1, s =>
    match lexProperty s with
    | .error e => .error e
    | .ok (pts, s1) =>
      match s1 with
      | [] => .error ⟨"error: unexpected end of line"⟩
      | c :: s2 =>
        if c = '(' then
          match lexExpr fuel s2 with
          | .error e => .error e
          | .ok (ets, s3) =>
            let w := readWS s3
            lexFunctionLoop fuel (pts ++ [Token.LeftParenthesis] ++ ets ++ w.1)
              w.2
        else .error ⟨"error: unexpected char after property"⟩

/-- The `while let Some(cc) = peek` loop inside `Lexer::function`.  As in
the source, end of input exits the loop without error and without a
closing parenthesis. -/
def lexFunctionLoop : Nat → List Token → List Char →
    Except LexerError (List Token × List Char)
  | 0, _, _ => .error ⟨"error: out of fuel"⟩
  | fuel + 1, acc, s =>
    match s with
    | [] => .ok (acc, [])
    | c :: s2 =>
      if c = ',' then
        match lexExpr fuel s2 with
        | .error e => .error e
        | .ok (ets, s3) =>
          let w := readWS s3
          lexFunctionLoop fuel (acc ++ [Token.Comma] ++ ets ++ w.1) w.2
      else if c = ')' then
        .ok (acc ++ [Token.RightParenthesis], s2)
      else .error ⟨"error: unexpected char after first argument"⟩

end

/-- Fuel budget used by `tokenize`; generous for the recursion depth of
any input of this length. -/
def fuelFor (s : List Char) : Nat := 4 * s.length + 16

/-- `Lexer::tokenize`: run `expr`, strip `WhiteSpace` tokens, and reject
unconsumed trailing input. -/
def tokenize (input : String) : Except LexerError (List Token) :=
  let s := input.toList
  match lexExpr (fuelFor s) s with
  | .error e => .error e
  | .ok (ts, rest) =>
    if rest.isEmpty then .ok (ts.filter (fun t => t ≠ Token.WhiteSpace))
    else .error ⟨"error: syntax error"⟩

/-! ## Parser (src/parser.rs) -/

/-- Mirrors `parser.rs` `enum Value`. -/
inductive Value where
  | Number (value : ℚ)
  | Function (name : String)
  | Variable (name : String)
  | Plus
  | Minus
  | Asterisk
  | Slash
  | Percent
  | Equal
  | NotEqual
  | GreaterThan
  | GreaterThanOrEqual
  | LessThan
  | LessThanOrEqual
  deriving DecidableEq

/-- Mirrors `parser.rs` `struct ParserError`. -/
structure ParserError where
  msg : String
  deriving DecidableEq

/-- The eleven operator tokens (the arms popped by the parser's flush
loops). -/
def isOpTok : Token → Bool
  | .Plus | .Minus | .Asterisk | .Slash | .Percent | .Equal | .NotEqual
  | .GreaterThan | .GreaterThanOrEqual | .LessThan | .LessThanOrEqual => true
  | _ => false

/-- `Parser::token_into_value` restricted to operator tokens (the only
tokens the flush loops convert); other tokens never reach this
conversion in the loops that use it. -/
def opVal : Token → Value
  | .Plus => .Plus
  | .Minus => .Minus
  | .Asterisk => .Asterisk
  | .Slash => .Slash
  | .Percent => .Percent
  | .Equal => .Equal
  | .NotEqual => .NotEqual
  | .GreaterThan => .GreaterThan
  | .GreaterThanOrEqual => .GreaterThanOrEqual
  | .LessThan => .LessThan
  | .LessThanOrEqual => .LessThanOrEqual
  | _ => .Number 0

/-- Pop loop for an incoming lower-tier operator (`Plus`, `Minus`,
`Percent`, comparisons): pop every operator token off the stack, stop at
anything else.  The stack is a list whose head is the top. -/
def lowFlush : List Token → List Value → List Token × List Value
  | t :: st, out =>
    if isOpTok t then lowFlush st (out ++ [opVal t]) else (t :: st, out)
  | [], out => ([], out)

/-- Pop loop for an incoming `*` or `/`: only `*` and `/` are popped. -/
def highFlush : List Token → List Value → List Token × List Value
  | Token.Asterisk :: st, out => highFlush st (out ++ [Value.Asterisk])
  | Token.Slash :: st, out => highFlush st (out ++ [Value.Slash])
  | st, out => (st, out)

/-- Pop loop for `)`: pop operators to the output until a `(` is popped
and discarded; then, if the new top is a property, pop it to the output
as a function item.  An emptied stack is the mismatched-parenthesis
error; any non-operator before the `(` is the unexpected-property error.
The first error message reproduces the source's spelling
(`matchedd`, parser.rs line 185). -/
def rparenPop : List Token → List Value →
    Except ParserError (List Token × List Value)
  | [], _ => .error ⟨"error: parenthesis is not matchedd"⟩
  | Token.LeftParenthesis :: st, out =>
    match st with
    | Token.Property f :: st2 => .ok (st2, out ++ [Value.Function f])
    | _ => .ok (st, out)
  | t :: st, out =>
    if isOpTok t then rparenPop st (out ++ [opVal t])
    else .error ⟨"error: unexpected property, token"⟩

/-- Pop loop for `,`: pop operators to the output until a `(` is found,
which stays on the stack. -/
def commaPop : List Token → List Value →
    Except ParserError (List Token × List Value)
  | [], _ => .error ⟨"error: parenthesis is not matched"⟩
  | Token.LeftParenthesis :: st, out => .ok (Token.LeftParenthesis :: st, out)
  | t :: st, out =>
    if isOpTok t then commaPop st (out ++ [opVal t])
    else .error ⟨"error: unexpected property, token"⟩

/-- The final drain of `Parser::parse_expr`: pop everything, operators to
the output, anything else is an error. -/
def drainAll : List Token → List Value → Except ParserError (List Value)
  | [], out => .ok out
  | t :: st, out =>
    if isOpTok t then drainAll st (out ++ [opVal t])
    else .error ⟨"error: unexpected token"⟩

/-- The token-consuming loop of `Parser::parse_expr` (shunting yard).
`stack`'s head is the stack top (the source uses the back of a linked
list).  Returns the output and the unread remainder of the token list. -/
def parseLoop : List Token → List Token → List Value →
    Except ParserError (List Value × List Token)
  | [], stack, out =>
    match drainAll stack out with
    | .error e => .error e
    | .ok o => .ok (o, [])
  | Token.WhiteSpace :: rest, stack, out => parseLoop rest stack out
  | Token.Number n :: rest, stack, out =>
    parseLoop rest stack (out ++ [Value.Number n])
  | Token.Plus :: rest, stack, out =>
    let p := lowFlush stack out
    parseLoop rest (Token.Plus :: p.1) p.2
  | Token.Minus :: rest, stack, out =>
    let p := lowFlush stack out
    parseLoop rest (Token.Minus :: p.1) p.2
  | Token.Percent :: rest, stack, out =>
    let p := lowFlush stack out
    parseLoop rest (Token.Percent :: p.1) p.2
  | Token.Equal :: rest, stack, out =>
    let p := lowFlush stack out
    parseLoop rest (Token.Equal :: p.1) p.2
  | Token.NotEqual :: rest, stack, out =>
    let p := lowFlush stack out
    parseLoop rest (Token.NotEqual :: p.1) p.2
  | Token.GreaterThan :: rest, stack, out =>
    let p := lowFlush stack out
    parseLoop rest (Token.GreaterThan :: p.1) p.2
  | Token.GreaterThanOrEqual :: rest, stack, out =>
    let p := lowFlush stack out
    parseLoop rest (Token.GreaterThanOrEqual :: p.1) p.2
  | Token.LessThan :: rest, stack, out =>
    let p := lowFlush stack out
    parseLoop rest (Token.LessThan :: p.1) p.2
  | Token.LessThanOrEqual :: rest, stack, out =>
    let p := lowFlush stack out
    parseLoop rest (Token.LessThanOrEqual :: p.1) p.2
  | Token.Asterisk :: rest, stack, out =>
    let p := highFlush stack out
    parseLoop rest (Token.Asterisk :: p.1) p.2
  | Token.Slash :: rest, stack, out =>
    let p := highFlush stack out
    parseLoop rest (Token.Slash :: p.1) p.2
  | Token.LeftParenthesis :: rest, stack, out =>
    parseLoop rest (Token.LeftParenthesis :: stack) out
  | Token.RightParenthesis :: rest, stack, out =>
    match rparenPop stack out with
    | .error e => .error e
    | .ok p => parseLoop rest p.1 p.2
  | Token.Property f :: rest, stack, out =>
    if rest.head? = some Token.LeftParenthesis then
      parseLoop rest (Token.Property f :: stack) out
    else parseLoop rest stack (out ++ [Value.Variable f])
  | Token.Comma :: rest, stack, out =>
    match commaPop stack out with
    | .error e => .error e
    | .ok p => parseLoop rest p.1 p.2

/-- `Parser::parse`: run `parse_expr`, then reject an empty output or an
unexhausted token cursor. -/
def parseTokens (ts : List Token) : Except ParserError (List Value) :=
  match parseLoop ts [] [] with
  | .error e => .error e
  | .ok (vs, rest) =>
    if vs.isEmpty || !rest.isEmpty then .error ⟨"error: syntax error"⟩
    else .ok vs

/-! ## Processor (src/processor.rs) -/

/-- Mirrors `processor.rs` `struct ProcessorError`. -/
structure ProcessorError where
  msg : String
  deriving DecidableEq

/-- Mirrors `processor.rs` `struct Function`: name, declared arity, and a
pure handler. -/
structure Function where
  name : String
  argsCount : Nat
  handler : List ℚ → ℚ

/-- Mirrors `processor.rs` `struct Variable`. -/
structure Variable where
  name : String
  value : ℚ

/-- `Function::calc`: the arity check, then the handler. -/
def Function.calc (f : Function) (args : List ℚ) : Except ProcessorError ℚ :=
  if args.length ≠ f.argsCount then
    .error ⟨"error: args count of " ++ f.name ++ " expects " ++
      toString f.argsCount ++ ", but provide " ++ toString args.length⟩
  else .ok (f.handler args)

/-- The function lookup in `Processor::execute`: first match by name. -/
def findFunc (fns : List Function) (f : String) : Option Function :=
  fns.find? (fun ff => ff.name == f)

/-- The variable lookup in `Processor::execute`. -/
def findVar (vars : List Variable) (v : String) : Option Variable :=
  vars.find? (fun vv => vv.name == v)

/-- The trunc-toward-zero used by C `fmod` (Rust `%` on `f64`). -/
def ratTrunc (q : ℚ) : ℤ := if 0 ≤ q then ⌊q⌋ else ⌈q⌉

/-- Exact model of Rust `f64 % f64` (C `fmod`): remainder with the sign
of the dividend. -/
def fmodQ (a b : ℚ) : ℚ := a - b * (ratTrunc (a / b) : ℚ)

/-- `Processor::calc_binary_operator`.  `v1` is the left operand, `v2`
the right (the caller passes them that way round). -/
def calcBinaryOperator (v1 v2 : ℚ) (operator : Value) :
    Except ProcessorError ℚ :=
  match operator with
  | .Plus => .ok (v1 + v2)
  | .Minus => .ok (v1 - v2)
  | .Asterisk => .ok (v1 * v2)
  | .Slash => .ok (v1 / v2)
  | .Percent => .ok (fmodQ v1 v2)
  | .Equal => .ok (if v1 = v2 then 1 else 0)
  | .NotEqual => .ok (if v1 ≠ v2 then 1 else 0)
  | .GreaterThan => .ok (if v1 > v2 then 1 else 0)
  | .GreaterThanOrEqual => .ok (if v1 ≥ v2 then 1 else 0)
  | .LessThan => .ok (if v1 < v2 then 1 else 0)
  | .LessThanOrEqual => .ok (if v1 ≤ v2 then 1 else 0)
  | _ => .error ⟨"error: unexpected token"⟩

/-- Popping `n` values off the operand stack (head = top), in pop order,
as the `for _ in 0..func.args_count` loop does; underflow is the
`"error: syntax error"` failure. -/
def popMany : Nat → List ℚ → Except ProcessorError (List ℚ × List ℚ)
  | 0, st => .ok ([], st)
  | _ + 1, [] => .error ⟨"error: syntax error"⟩
  | n + 1, v :: st =>
    match popMany n st with
    | .error e => .error e
    | .ok (l, st2) => .ok (v :: l, st2)

/-- One step of the `Processor::execute` loop on postfix item `v`. -/
def execStep (fns : List Function) (vars : List Variable) (v : Value)
    (st : List ℚ) : Except ProcessorError (List ℚ) :=
  match v with
  | .Number n => .ok (n :: st)
  | .Function f =>
    match findFunc fns f with
    | some fn =>
      match popMany fn.argsCount st with
      | .error e => .error e
      | .ok (popped, st2) =>
        match fn.calc popped.reverse with
        | .error e => .error e
        | .ok r => .ok (r :: st2)
    | none => .error ⟨"error: unknown function, " ++ f⟩
  | .Variable x =>
    match findVar vars x with
    | some vv => .ok (vv.value :: st)
    | none => .error ⟨"error: unknown variable, " ++ x⟩
  | op =>
    match st with
    | v1 :: v2 :: st2 =>
      match calcBinaryOperator v2 v1 op with
      | .error e => .error e
      | .ok r => .ok (r :: st2)
    | _ => .error ⟨"error: syntax error"⟩

/-- The single pass of `Processor::execute` over the postfix sequence. -/
def execPass (fns : List Function) (vars : List Variable) :
    List Value → List ℚ → Except ProcessorError (List ℚ)
  | [], st => .ok st
  | v :: rest, st =>
    match execStep fns vars v st with
    | .error e => .error e
    | .ok st2 => execPass fns vars rest st2

/-- `Processor::execute`: the pass, then the final exactly-one-value
check. -/
def execute (values : List Value) (fns : List Function)
    (vars : List Variable) : Except ProcessorError ℚ :=
  match execPass fns vars values [] with
  | .error e => .error e
  | .ok st =>
    match st with
    | [r] => .ok r
    | _ => .error ⟨"error: syntax error"⟩

/-! ## Variant of the processor with the arity check of `Function::calc`
removed (the handler is invoked directly).  Used to state that the
arity-mismatch branch is unreachable from `execute`. -/

/-- `execStep` with `Function::calc`'s arity check skipped. -/
def execStepNC (fns : List Function) (vars : List Variable) (v : Value)
    (st : List ℚ) : Except ProcessorError (List ℚ) :=
  match v with
  | .Function f =>
    match findFunc fns f with
    | some fn =>
      match popMany fn.argsCount st with
      | .error e => .error e
      | .ok (popped, st2) => .ok (fn.handler popped.reverse :: st2)
    | none => .error ⟨"error: unknown function, " ++ f⟩
  | v => execStep fns vars v st

/-- `execPass` built on `execStepNC`. -/
def execPassNC (fns : List Function) (vars : List Variable) :
    List Value → List ℚ → Except ProcessorError (List ℚ)
  | [], st => .ok st
  | v :: rest, st =>
    match execStepNC fns vars v st with
    | .error e => .error e
    | .ok st2 => execPassNC fns vars rest st2

/-- `execute` built on `execStepNC`. -/
def executeNC (values : List Value) (fns : List Function)
    (vars : List Variable) : Except ProcessorError ℚ :=
  match execPassNC fns vars values [] with
  | .error e => .error e
  | .ok st =>
    match st with
    | [r] => .ok r
    | _ => .error ⟨"error: syntax error"⟩

/-! ## Entry point (src/lib.rs) -/

/-- Mirrors `lib.rs` `enum ErrorType`. -/
inductive ErrorType where
  | Lexer
  | Parser
  | Processor
  deriving DecidableEq

/-- Mirrors `lib.rs` `struct FormulaError`. -/
structure FormulaError where
  msg : String
  errorType : ErrorType

/-- The reserved function set built at the top of `parse_formula`.
Handlers index their argument vectors exactly as the Rust closures do
(`args.getD i 0` models `args[i]`; the index is always in bounds when
invoked through `Function::calc`). -/
def reservedFunctions : List Function :=
  [⟨"Add", 2, fun args => args.getD 0 0 + args.getD 1 0⟩,
   ⟨"Sub", 2, fun args => args.getD 0 0 - args.getD 1 0⟩,
   ⟨"Mul", 2, fun args => args.getD 0 0 * args.getD 1 0⟩,
   ⟨"Div", 2, fun args => args.getD 0 0 / args.getD 1 0⟩,
   ⟨"Mod", 2, fun args => fmodQ (args.getD 0 0) (args.getD 1 0)⟩,
   ⟨"If", 3, fun args =>
      if args.getD 0 0 = 0 then args.getD 2 0 else args.getD 1 0⟩]

/-- The function table `parse_formula` hands to the processor: the
reserved set with the caller's functions appended after it. -/
def allFunctions (functions : List Function) : List Function :=
  reservedFunctions ++ functions

/-- `parse_formula`: the three stages with their stage-tagged error
wrapping. -/
def parseFormula (input : String) (functions : List Function)
    (vars : List Variable) : Except FormulaError ℚ :=
  match tokenize input with
  | .error e => .error ⟨e.msg, ErrorType.Lexer⟩
  | .ok ts =>
    match parseTokens ts with
    | .error e => .error ⟨e.msg, ErrorType.Parser⟩
    | .ok vs =>
      match execute vs (allFunctions functions) vars with
      | .error e => .error ⟨e.msg, ErrorType.Processor⟩
      | .ok r => .ok r

/-- Stage tag of a pipeline outcome, `none` on success. -/
def errTypeOf (r : Except FormulaError ℚ) : Option ErrorType :=
  match r with
  | .error e => some e.errorType
  | .ok _ => none

/-- Whether the name a single postfix item references (if any) is
present in the given tables. -/
def nameDefined (fns : List Function) (vars : List Variable) : Value → Bool
  | .Function f => (findFunc fns f).isSome
  | .Variable x => (findVar vars x).isSome
  | _ => true

/-- Whether every function and variable name referenced by a postfix
sequence is present in the given tables. -/
def namesDefined (vs : List Value) (fns : List Function)
    (vars : List Variable) : Bool :=
  vs.all (nameDefined fns vars)

/-! ## The token-level formula grammar

The grammar below is the language of token streams the lexer's
recursive descent emits, written with the parser's precedence tiers:
`*` and `/` bind in the term layer, while `+ - %` and the six
comparisons all live together in the single expression layer (the
parser puts `Percent` in the lower tier, parser.rs lines 77–85).
Both layers are left-associative in evaluation order. -/

/-- The nine operators of the single lower precedence tier. -/
inductive LowOp where
  | plus
  | minus
  | percent
  | eq
  | ne
  | gt
  | ge
  | lt
  | le
  deriving DecidableEq

/-- The two operators of the higher precedence tier. -/
inductive HighOp where
  | mul
  | div
  deriving DecidableEq

/-- Grammar nonterminals. -/
inductive GKind where
  | expr
  | exprTail
  | term
  | termTail
  | fact
  | args
  deriving DecidableEq

/-- Derivations of the formula grammar:
`expr ::= term (lowop term)*`, `term ::= fact (highop fact)*`,
`fact ::= number | ( expr ) | Name ( args ) | name`,
`args ::= expr (, expr)*`. -/
inductive Gram : GKind → Type where
  | eMk : Gram .term → Gram .exprTail → Gram .expr
  | etNil : Gram .exprTail
  | etCons : LowOp → Gram .term → Gram .exprTail → Gram .exprTail
  | tMk : Gram .fact → Gram .termTail → Gram .term
  | ttNil : Gram .termTail
  | ttCons : HighOp → Gram .fact → Gram .termTail → Gram .termTail
  | fNum : ℚ → Gram .fact
  | fParen : Gram .expr → Gram .fact
  | fCall : String → Gram .args → Gram .fact
  | fVar : String → Gram .fact
  | aOne : Gram .expr → Gram .args
  | aMore : Gram .expr → Gram .args → Gram .args

/-- Token of a lower-tier operator. -/
def lowTok : LowOp → Token
  | .plus => .Plus
  | .minus => .Minus
  | .percent => .Percent
  | .eq => .Equal
  | .ne => .NotEqual
  | .gt => .GreaterThan
  | .ge => .GreaterThanOrEqual
  | .lt => .LessThan
  | .le => .LessThanOrEqual

/-- Postfix item of a lower-tier operator. -/
def lowVal : LowOp → Value
  | .plus => .Plus
  | .minus => .Minus
  | .percent => .Percent
  | .eq => .Equal
  | .ne => .NotEqual
  | .gt => .GreaterThan
  | .ge => .GreaterThanOrEqual
  | .lt => .LessThan
  | .le => .LessThanOrEqual

/-- Token of a higher-tier operator. -/
def highTok : HighOp → Token
  | .mul => .Asterisk
  | .div => .Slash

/-- Postfix item of a higher-tier operator. -/
def highVal : HighOp → Value
  | .mul => .Asterisk
  | .div => .Slash

/-- Semantics of a lower-tier operator, exactly as
`Processor::calc_binary_operator` computes it (left operand first). -/
def lowApply : LowOp → ℚ → ℚ → ℚ
  | .plus, a, b => a + b
  | .minus, a, b => a - b
  | .percent, a, b => fmodQ a b
  | .eq, a, b => if a = b then 1 else 0
  | .ne, a, b => if a ≠ b then 1 else 0
  | .gt, a, b => if a > b then 1 else 0
  | .ge, a, b => if a ≥ b then 1 else 0
  | .lt, a, b => if a < b then 1 else 0
  | .le, a, b => if a ≤ b then 1 else 0

/-- Semantics of a higher-tier operator. -/
def highApply : HighOp → ℚ → ℚ → ℚ
  | .mul, a, b => a * b
  | .div, a, b => a / b

/-- Infix token rendering of a derivation. -/
def gtokens : {k : GKind} → Gram k → List Token
  | _, .eMk t tail => gtokens t ++ gtokens tail
  | _, .etNil => []
  | _, .etCons op t tail => lowTok op :: (gtokens t ++ gtokens tail)
  | _, .tMk f tail => gtokens f ++ gtokens tail
  | _, .ttNil => []
  | _, .ttCons op f tail => highTok op :: (gtokens f ++ gtokens tail)
  | _, .fNum q => [Token.Number q]
  | _, .fParen e => Token.LeftParenthesis :: (gtokens e ++ [Token.RightParenthesis])
  | _, .fCall f as =>
    Token.Property f :: Token.LeftParenthesis ::
      (gtokens as ++ [Token.RightParenthesis])
  | _, .fVar v => [Token.Property v]
  | _, .aOne e => gtokens e
  | _, .aMore e rest => gtokens e ++ Token.Comma :: gtokens rest

/-- Postfix (output) rendering of a derivation. -/
def grpn : {k : GKind} → Gram k → List Value
  | _, .eMk t tail => grpn t ++ grpn tail
  | _, .etNil => []
  | _, .etCons op t tail => grpn t ++ [lowVal op] ++ grpn tail
  | _, .tMk f tail => grpn f ++ grpn tail
  | _, .ttNil => []
  | _, .ttCons op f tail => grpn f ++ [highVal op] ++ grpn tail
  | _, .fNum q => [Value.Number q]
  | _, .fParen e => grpn e
  | _, .fCall f as => grpn as ++ [Value.Function f]
  | _, .fVar v => [Value.Variable v]
  | _, .aOne e => grpn e
  | _, .aMore e rest => grpn e ++ grpn rest

/-- Number of arguments of an argument-list derivation. -/
def argsLen : Gram .args → Nat
  | .aOne _ => 1
  | .aMore _ rest => 1 + argsLen rest

/-- Result type of the reference evaluation, by nonterminal: tails
transform the accumulated left value. -/
@[reducible] def EvalTy : GKind → Type
  | .expr => ℚ
  | .exprTail => ℚ → ℚ
  | .term => ℚ
  | .termTail => ℚ → ℚ
  | .fact => ℚ
  | .args => List ℚ

/-- Reference evaluation: left-associative within each of the two tiers,
functions and variables looked up in the given tables (defaulting to `0`
for absent names; the well-formedness predicate below excludes that
case). -/
def geval (fns : List Function) (vars : List Variable) :
    {k : GKind} → Gram k → EvalTy k
  | .expr, .eMk t tail => geval fns vars tail (geval fns vars t)
  | .exprTail, .etNil => fun acc => acc
  | .exprTail, .etCons op t tail =>
    fun acc => geval fns vars tail (lowApply op acc (geval fns vars t))
  | .term, .tMk f tail => geval fns vars tail (geval fns vars f)
  | .termTail, .ttNil => fun acc => acc
  | .termTail, .ttCons op f tail =>
    fun acc => geval fns vars tail (highApply op acc (geval fns vars f))
  | .fact, .fNum q => q
  | .fact, .fParen e => @geval fns vars .expr e
  | .fact, .fCall f as =>
    match findFunc fns f with
    | some fn => fn.handler (@geval fns vars .args as)
    | none => 0
  | .fact, .fVar v =>
    match findVar vars v with
    | some vv => vv.value
    | none => 0
  | .args, .aOne e => [@geval fns vars .expr e]
  | .args, .aMore e rest =>
    @geval fns vars .expr e :: @geval fns vars .args rest

/-- Well-formedness of a derivation with respect to evaluation tables:
every variable is present, and every called function is present with
declared arity equal to the number of arguments at that call site. -/
def gwf (fns : List Function) (vars : List Variable) :
    {k : GKind} → Gram k → Bool
  | _, .eMk t tail => gwf fns vars t && gwf fns vars tail
  | _, .etNil => true
  | _, .etCons _ t tail => gwf fns vars t && gwf fns vars tail
  | _, .tMk f tail => gwf fns vars f && gwf fns vars tail
  | _, .ttNil => true
  | _, .ttCons _ f tail => gwf fns vars f && gwf fns vars tail
  | _, .fNum _ => true
  | _, .fParen e => gwf fns vars e
  | _, .fCall f as =>
    (match findFunc fns f with
     | some fn => fn.argsCount == argsLen as
     | none => false) && gwf fns vars as
  | _, .fVar v => (findVar vars v).isSome
  | _, .aOne e => gwf fns vars e
  | _, .aMore e rest => gwf fns vars e && gwf fns vars rest

/-- A derivation mentioning no function call and no variable: a purely
numeric-literal expression. -/
def gnumeric : {k : GKind} → Gram k → Bool
  | _, .eMk t tail => gnumeric t && gnumeric tail
  | _, .etNil => true
  | _, .etCons _ t tail => gnumeric t && gnumeric tail
  | _, .tMk f tail => gnumeric f && gnumeric tail
  | _, .ttNil => true
  | _, .ttCons _ f tail => gnumeric f && gnumeric tail
  | _, .fNum _ => true
  | _, .fParen e => gnumeric e
  | _, .fCall _ _ => false
  | _, .fVar _ => false
  | _, .aOne e => gnumeric e
  | _, .aMore e rest => gnumeric e && gnumeric rest

/-- The reference result of a purely numeric expression: evaluation with
empty tables (no lookup ever happens for a `gnumeric` derivation).  This
is standard evaluation under the two-tier left-associative precedence. -/
def pureEval (e : Gram .expr) : ℚ := geval [] [] e

/-! ## State descriptions used by the shunting-yard correctness proof -/

/-- Operator tokens still pending on the parser stack after a term,
given those pending when the term started (`hp` is empty or one
higher-tier operator). -/
def ttPendF : List Token → Gram .termTail → List Token
  | hp, .ttNil => hp
  | _, .ttCons op _ tail => ttPendF [highTok op] tail

/-- Output emitted while processing a term tail, given the pending
operators when it started. -/
def ttOutF : List Token → Gram .termTail → List Value
  | _, .ttNil => []
  | hp, .ttCons op f tail => hp.map opVal ++ grpn f ++ ttOutF [highTok op] tail

/-- Pending operators after a full term processed from a clean stack. -/
def termPend : Gram .term → List Token
  | .tMk _ tail => ttPendF [] tail

/-- Output emitted by a full term processed from a clean stack. -/
def termOut : Gram .term → List Value
  | .tMk f tail => grpn f ++ ttOutF [] tail

/-- Pending operators after an expression tail, given those pending when
it started. -/
def etPend : Gram .exprTail → List Token → List Token
  | .etNil, p => p
  | .etCons op t tail, _ => etPend tail (termPend t ++ [lowTok op])

/-- Output emitted while processing an expression tail. -/
def etOut : Gram .exprTail → List Token → List Value
  | .etNil, _ => []
  | .etCons op t tail, p =>
    p.map opVal ++ termOut t ++ etOut tail (termPend t ++ [lowTok op])

/-- Pending operators after a full expression processed from a barrier
(empty stack or `(` on top). -/
def exprPend : Gram .expr → List Token
  | .eMk t tail => etPend tail (termPend t)

/-- Output emitted by a full expression processed from a barrier. -/
def exprOut : Gram .expr → List Value
  | .eMk t tail => termOut t ++ etOut tail (termPend t)

/-- The stack top is empty or an opening parenthesis (the only contexts
in which an expression is processed). -/
def Barrier (st : List Token) : Prop :=
  st = [] ∨ st.head? = some Token.LeftParenthesis

/-- The stack top is not a property marker. -/
def HeadNotProp (st : List Token) : Prop :=
  ∀ f, st.head? ≠ some (Token.Property f)

/-- The stack top is neither `*` nor `/`. -/
def HeadNotHigh (st : List Token) : Prop :=
  st.head? ≠ some Token.Asterisk ∧ st.head? ≠ some Token.Slash

/-- The unread tokens following a grammar chunk never start with `(`
(so a trailing variable is not misread as a function marker). -/
def RestOK (rest : List Token) : Prop :=
  rest.head? ≠ some Token.LeftParenthesis

/-- A pending-list for the term layer: empty or one higher-tier
operator token. -/
def PendOK (hp : List Token) : Prop :=
  hp = [] ∨ ∃ h, hp = [highTok h]

/-- Every token of the list is an operator token. -/
def AllOps (P : List Token) : Prop := ∀ t ∈ P, isOpTok t = true

/-- Motive of the shunting-yard correctness induction: for each
nonterminal, how `parseLoop` transforms its state across the rendering
of a derivation, together with the bookkeeping facts about the pending
operators. -/
def ParseP : (k : GKind) → Gram k → Prop
  | .expr, g =>
    (∀ st out rest, Barrier st → RestOK rest →
      parseLoop (gtokens g ++ rest) st out
        = parseLoop rest (exprPend g ++ st) (out ++ exprOut g))
    ∧ AllOps (exprPend g)
    ∧ exprOut g ++ (exprPend g).map opVal = grpn g
  | .exprTail, g =>
    (∀ P st out rest, AllOps P → Barrier st → RestOK rest →
      parseLoop (gtokens g ++ rest) (P ++ st) out
        = parseLoop rest (etPend g P ++ st) (out ++ etOut g P))
    ∧ ∀ P, AllOps P → AllOps (etPend g P)
        ∧ etOut g P ++ (etPend g P).map opVal = P.map opVal ++ grpn g
  | .term, g =>
    (∀ st out rest, HeadNotProp st → HeadNotHigh st → RestOK rest →
      parseLoop (gtokens g ++ rest) st out
        = parseLoop rest (termPend g ++ st) (out ++ termOut g))
    ∧ PendOK (termPend g)
    ∧ termOut g ++ (termPend g).map opVal = grpn g
  | .termTail, g =>
    (∀ hp st out rest, PendOK hp → HeadNotProp st → HeadNotHigh st →
        RestOK rest →
      parseLoop (gtokens g ++ rest) (hp ++ st) out
        = parseLoop rest (ttPendF hp g ++ st) (out ++ ttOutF hp g))
    ∧ ∀ hp, PendOK hp → PendOK (ttPendF hp g)
        ∧ ttOutF hp g ++ (ttPendF hp g).map opVal = hp.map opVal ++ grpn g
  | .fact, g => ∀ st out rest, HeadNotProp st → RestOK rest →
      parseLoop (gtokens g ++ rest) st out = parseLoop rest st (out ++ grpn g)
  | .args, g => ∀ f st out rest, RestOK rest →
      parseLoop (gtokens g ++ (Token.RightParenthesis :: rest))
          (Token.LeftParenthesis :: Token.Property f :: st) out
        = parseLoop rest st (out ++ grpn g ++ [Value.Function f])

/-- Motive of the postfix-execution induction: the postfix rendering of
a well-formed derivation pushes exactly its reference value. -/
def ExecP (fns : List Function) (vars : List Variable) :
    (k : GKind) → Gram k → Prop
  | .expr, g => gwf fns vars g = true → ∀ st,
      execPass fns vars (grpn g) st = .ok (geval fns vars g :: st)
  | .exprTail, g => gwf fns vars g = true → ∀ acc st,
      execPass fns vars (grpn g) (acc :: st)
        = .ok (geval fns vars g acc :: st)
  | .term, g => gwf fns vars g = true → ∀ st,
      execPass fns vars (grpn g) st = .ok (geval fns vars g :: st)
  | .termTail, g => gwf fns vars g = true → ∀ acc st,
      execPass fns vars (grpn g) (acc :: st)
        = .ok (geval fns vars g acc :: st)
  | .fact, g => gwf fns vars g = true → ∀ st,
      execPass fns vars (grpn g) st = .ok (geval fns vars g :: st)
  | .args, g => gwf fns vars g = true → ∀ st,
      execPass fns vars (grpn g) st
        = .ok ((geval fns vars g).reverse ++ st)

/-- Auxiliary structural facts: argument counts of the reference
evaluation, and non-emptiness of postfix renderings. -/
def AuxP : (k : GKind) → Gram k → Prop
  | .expr, g => grpn g ≠ []
  | .term, g => grpn g ≠ []
  | .fact, g => grpn g ≠ []
  | .args, g => ∀ fns vars, (geval fns vars g).length = argsLen g
  | _, _ => True

/-- Purely numeric derivations are well formed for any tables and
evaluate independently of the tables. -/
def NumP : (k : GKind) → Gram k → Prop
  | .expr, g => gnumeric g = true → ∀ fns vars fns2 vars2,
      gwf fns vars g = true ∧ geval fns vars g = geval fns2 vars2 g
  | .exprTail, g => gnumeric g = true → ∀ fns vars fns2 vars2,
      gwf fns vars g = true ∧
        ∀ acc, geval fns vars g acc = geval fns2 vars2 g acc
  | .term, g => gnumeric g = true → ∀ fns vars fns2 vars2,
      gwf fns vars g = true ∧ geval fns vars g = geval fns2 vars2 g
  | .termTail, g => gnumeric g = true → ∀ fns vars fns2 vars2,
      gwf fns vars g = true ∧
        ∀ acc, geval fns vars g acc = geval fns2 vars2 g acc
  | .fact, g => gnumeric g = true → ∀ fns vars fns2 vars2,
      gwf fns vars g = true ∧ geval fns vars g = geval fns2 vars2 g
  | .args, g => gnumeric g = true → ∀ fns vars fns2 vars2,
      gwf fns vars g = true ∧ geval fns vars g = geval fns2 vars2 g

/-! ## Operator-token lemmas -/

theorem isOpTok_lowTok (op : LowOp) : isOpTok (lowTok op) = true := by
  cases op <;> rfl

theorem isOpTok_highTok (h : HighOp) : isOpTok (highTok h) = true := by
  cases h <;> rfl

theorem opVal_lowTok (op : LowOp) : opVal (lowTok op) = lowVal op := by
  cases op <;> rfl

theorem opVal_highTok (h : HighOp) : opVal (highTok h) = highVal h := by
  cases h <;> rfl

theorem lowTok_ne_lparen (op : LowOp) :
    lowTok op ≠ Token.LeftParenthesis := by cases op <;> simp [lowTok]

theorem highTok_ne_lparen (h : HighOp) :
    highTok h ≠ Token.LeftParenthesis := by cases h <;> simp [highTok]

theorem lowTok_ne_prop (op : LowOp) (f : String) :
    lowTok op ≠ Token.Property f := by cases op <;> simp [lowTok]

theorem highTok_ne_prop (h : HighOp) (f : String) :
    highTok h ≠ Token.Property f := by cases h <;> simp [highTok]

theorem lowTok_ne_high (op : LowOp) :
    lowTok op ≠ Token.Asterisk ∧ lowTok op ≠ Token.Slash := by
  cases op <;> simp [lowTok]

/-! ## Flush-loop lemmas -/

theorem lowFlush_pop (t : Token) (ht : isOpTok t = true) (st : List Token)
    (out : List Value) :
    lowFlush (t :: st) out = lowFlush st (out ++ [opVal t]) := by
  simp [lowFlush, ht]

theorem lowFlush_stop (t : Token) (ht : isOpTok t = false) (st : List Token)
    (out : List Value) : lowFlush (t :: st) out = (t :: st, out) := by
  simp [lowFlush, ht]

theorem lowFlush_ops (P : List Token) (hP : AllOps P) (st : List Token)
    (hst : Barrier st) (out : List Value) :
    lowFlush (P ++ st) out = (st, out ++ P.map opVal) := by
  induction P generalizing out with
  | nil =>
    rcases hst with rfl | h
    · simp [lowFlush]
    · rcases st with _ | ⟨t, st2⟩
      · simp at h
      · simp only [List.head?] at h
        injection h with h
        subst h
        simpa using lowFlush_stop Token.LeftParenthesis rfl st2 out
  | cons t P ih =>
    have ht := hP t (by simp)
    rw [List.cons_append, lowFlush_pop t ht, ih (fun x hx => hP x (by simp [hx]))]
    simp

theorem highFlush_stop (st : List Token) (h : HeadNotHigh st)
    (out : List Value) : highFlush st out = (st, out) := by
  rcases st with _ | ⟨t, st2⟩
  · rfl
  · obtain ⟨h1, h2⟩ := h
    simp only [List.head?, ne_eq, Option.some.injEq] at h1 h2
    cases t <;> simp_all [highFlush]

theorem highFlush_pend (hp : List Token) (hhp : PendOK hp) (st : List Token)
    (hst : HeadNotHigh st) (out : List Value) :
    highFlush (hp ++ st) out = (st, out ++ hp.map opVal) := by
  rcases hhp with rfl | ⟨h, rfl⟩
  · simp [highFlush_stop st hst]
  · cases h <;> simp [highFlush, highFlush_stop st hst, highTok, opVal]

theorem rparenPop_ops (P : List Token) (hP : AllOps P) (st : List Token)
    (hst : HeadNotProp st) (out : List Value) :
    rparenPop (P ++ Token.LeftParenthesis :: st) out
      = .ok (st, out ++ P.map opVal) := by
  induction P generalizing out with
  | nil =>
    rcases st with _ | ⟨t, st2⟩
    · simp [rparenPop]
    · have := hst
      simp only [HeadNotProp, List.head?, ne_eq, Option.some.injEq] at this
      cases t <;> simp_all [rparenPop]
  | cons t P ih =>
    have ht := hP t (by simp)
    have hne : t ≠ Token.LeftParenthesis := by
      intro h; rw [h] at ht; simp [isOpTok] at ht
    have hstep : rparenPop (t :: (P ++ Token.LeftParenthesis :: st)) out
        = rparenPop (P ++ Token.LeftParenthesis :: st) (out ++ [opVal t]) := by
      cases t <;> simp_all [rparenPop, isOpTok]
    rw [List.cons_append, hstep, ih (fun x hx => hP x (by simp [hx]))]
    simp

theorem rparenPop_fun (P : List Token) (hP : AllOps P) (f : String)
    (st : List Token) (out : List Value) :
    rparenPop (P ++ Token.LeftParenthesis :: Token.Property f :: st) out
      = .ok (st, out ++ P.map opVal ++ [Value.Function f]) := by
  induction P generalizing out with
  | nil => simp [rparenPop]
  | cons t P ih =>
    have ht := hP t (by simp)
    have hstep : rparenPop
          (t :: (P ++ Token.LeftParenthesis :: Token.Property f :: st)) out
        = rparenPop (P ++ Token.LeftParenthesis :: Token.Property f :: st)
            (out ++ [opVal t]) := by
      cases t <;> simp_all [rparenPop, isOpTok]
    rw [List.cons_append, hstep, ih (fun x hx => hP x (by simp [hx]))]
    simp

theorem commaPop_ops (P : List Token) (hP : AllOps P) (st : List Token)
    (out : List Value) :
    commaPop (P ++ Token.LeftParenthesis :: st) out
      = .ok (Token.LeftParenthesis :: st, out ++ P.map opVal) := by
  induction P generalizing out with
  | nil => simp [commaPop]
  | cons t P ih =>
    have ht := hP t (by simp)
    have hstep : commaPop (t :: (P ++ Token.LeftParenthesis :: st)) out
        = commaPop (P ++ Token.LeftParenthesis :: st) (out ++ [opVal t]) := by
      cases t <;> simp_all [commaPop, isOpTok]
    rw [List.cons_append, hstep, ih (fun x hx => hP x (by simp [hx]))]
    simp

theorem drainAll_ops (P : List Token) (hP : AllOps P) (out : List Value) :
    drainAll P out = .ok (out ++ P.map opVal) := by
  induction P generalizing out with
  | nil => simp [drainAll]
  | cons t P ih =>
    have ht := hP t (by simp)
    have hstep : drainAll (t :: P) out = drainAll P (out ++ [opVal t]) := by
      simp [drainAll, ht]
    rw [hstep, ih (fun x hx => hP x (by simp [hx]))]
    simp

/-! ## parseLoop step lemmas -/

theorem parseLoop_low (op : LowOp) (rest stack : List Token)
    (out : List Value) :
    parseLoop (lowTok op :: rest) stack out
      = parseLoop rest (lowTok op :: (lowFlush stack out).1)
          (lowFlush stack out).2 := by
  cases op <;> rfl

theorem parseLoop_high (h : HighOp) (rest stack : List Token)
    (out : List Value) :
    parseLoop (highTok h :: rest) stack out
      = parseLoop rest (highTok h :: (highFlush stack out).1)
          (highFlush stack out).2 := by
  cases h <;> rfl

theorem parseLoop_rparen_ok (stack : List Token) (out : List Value)
    (p : List Token × List Value) (h : rparenPop stack out = .ok p)
    (rest : List Token) :
    parseLoop (Token.RightParenthesis :: rest) stack out
      = parseLoop rest p.1 p.2 := by
  simp [parseLoop, h]

theorem parseLoop_comma_ok (stack : List Token) (out : List Value)
    (p : List Token × List Value) (h : commaPop stack out = .ok p)
    (rest : List Token) :
    parseLoop (Token.Comma :: rest) stack out = parseLoop rest p.1 p.2 := by
  simp [parseLoop, h]

theorem parseLoop_prop_fn (f : String) (rest : List Token)
    (h : rest.head? = some Token.LeftParenthesis) (stack : List Token)
    (out : List Value) :
    parseLoop (Token.Property f :: rest) stack out
      = parseLoop rest (Token.Property f :: stack) out := by
  simp [parseLoop, h]

theorem parseLoop_prop_var (f : String) (rest : List Token)
    (h : rest.head? ≠ some Token.LeftParenthesis) (stack : List Token)
    (out : List Value) :
    parseLoop (Token.Property f :: rest) stack out
      = parseLoop rest stack (out ++ [Value.Variable f]) := by
  simp [parseLoop, h]

/-! ## Stack- and rest-shape helpers -/

theorem barrier_notProp (st : List Token) (h : Barrier st) : HeadNotProp st := by
  rcases h with rfl | h
  · intro f; simp
  · intro f; rw [h]; simp

theorem barrier_notHigh (st : List Token) (h : Barrier st) : HeadNotHigh st := by
  rcases h with rfl | h
  · constructor <;> simp
  · constructor <;> rw [h] <;> simp

theorem notProp_cons_low (op : LowOp) (st : List Token) :
    HeadNotProp (lowTok op :: st) := by
  intro f; simp [lowTok_ne_prop op f]

theorem notHigh_cons_low (op : LowOp) (st : List Token) :
    HeadNotHigh (lowTok op :: st) := by
  obtain ⟨h1, h2⟩ := lowTok_ne_high op
  constructor <;> simp [h1, h2]

theorem notProp_cons_high (h : HighOp) (st : List Token) :
    HeadNotProp (highTok h :: st) := by
  intro f; simp [highTok_ne_prop h f]

theorem pendOK_allOps (hp : List Token) (h : PendOK hp) : AllOps hp := by
  rcases h with rfl | ⟨op, rfl⟩
  · intro t ht; simp at ht
  · intro t ht
    simp at ht
    subst ht
    exact isOpTok_highTok op

theorem allOps_append (P Q : List Token) (hP : AllOps P) (hQ : AllOps Q) :
    AllOps (P ++ Q) := by
  intro t ht
  rcases List.mem_append.mp ht with h | h
  · exact hP t h
  · exact hQ t h

theorem allOps_low_single (op : LowOp) : AllOps [lowTok op] := by
  intro t ht
  simp at ht
  subst ht
  exact isOpTok_lowTok op

theorem restOK_exprTail (g : Gram .exprTail) (rest : List Token)
    (h : RestOK rest) : RestOK (gtokens g ++ rest) := by
  cases g with
  | etNil => simpa [gtokens] using h
  | etCons op t tail => simp [gtokens, RestOK, lowTok_ne_lparen op]

theorem restOK_termTail (g : Gram .termTail) (rest : List Token)
    (h : RestOK rest) : RestOK (gtokens g ++ rest) := by
  cases g with
  | ttNil => simpa [gtokens] using h
  | ttCons op f tail => simp [gtokens, RestOK, highTok_ne_lparen op]

theorem restOK_rparen (rest : List Token) :
    RestOK (Token.RightParenthesis :: rest) := by simp [RestOK]

theorem restOK_comma (rest : List Token) :
    RestOK (Token.Comma :: rest) := by simp [RestOK]

theorem restOK_nil : RestOK ([] : List Token) := by simp [RestOK]

/-! ## Shunting-yard correctness: the main induction -/

theorem parseP_all : ∀ {k : GKind} (g : Gram k), ParseP k g := by
  intro k g
  induction g with
  | eMk t tail iht ihtail =>
    simp only [ParseP] at iht ihtail ⊢
    obtain ⟨iht1, iht2, iht3⟩ := iht
    obtain ⟨ihtail1, ihtail2⟩ := ihtail
    refine ⟨?_, ?_, ?_⟩
    · intro st out rest hB hR
      simp only [gtokens, List.append_assoc]
      rw [iht1 st out (gtokens tail ++ rest) (barrier_notProp st hB)
        (barrier_notHigh st hB) (restOK_exprTail tail rest hR)]
      rw [ihtail1 (termPend t) st (out ++ termOut t) rest
        (pendOK_allOps _ iht2) hB hR]
      simp [exprPend, exprOut, List.append_assoc]
    · exact (ihtail2 (termPend t) (pendOK_allOps _ iht2)).1
    · have h2 := (ihtail2 (termPend t) (pendOK_allOps _ iht2)).2
      simp only [exprPend, exprOut, grpn, List.append_assoc]
      rw [h2, ← List.append_assoc, iht3]
  | etNil =>
    simp only [ParseP]
    refine ⟨?_, ?_⟩
    · intro P st out rest hP hB hR
      simp [gtokens, etPend, etOut]
    · intro P hP
      constructor
      · simpa [etPend] using hP
      · simp [etOut, etPend, grpn]
  | etCons op t2 tail iht ihtail =>
    simp only [ParseP] at iht ihtail ⊢
    obtain ⟨iht1, iht2, iht3⟩ := iht
    obtain ⟨ihtail1, ihtail2⟩ := ihtail
    have hP2 : ∀ P, AllOps P → AllOps (termPend t2 ++ [lowTok op]) := by
      intro P hP
      exact allOps_append _ _ (pendOK_allOps _ iht2) (allOps_low_single op)
    refine ⟨?_, ?_⟩
    · intro P st out rest hP hB hR
      simp only [gtokens, List.cons_append, List.append_assoc]
      rw [parseLoop_low op, lowFlush_ops P hP st hB out]
      rw [iht1 (lowTok op :: st) (out ++ P.map opVal) (gtokens tail ++ rest)
        (notProp_cons_low op st) (notHigh_cons_low op st)
        (restOK_exprTail tail rest hR)]
      have : termPend t2 ++ lowTok op :: st
          = (termPend t2 ++ [lowTok op]) ++ st := by simp
      rw [this, ihtail1 (termPend t2 ++ [lowTok op]) st _ rest (hP2 P hP) hB hR]
      simp [etPend, etOut, List.append_assoc]
    · intro P hP
      have h2 := ihtail2 (termPend t2 ++ [lowTok op]) (hP2 P hP)
      refine ⟨by simpa [etPend] using h2.1, ?_⟩
      simp only [etOut, etPend, grpn, List.append_assoc]
      rw [h2.2]
      simp only [List.map_append, List.append_assoc, List.map_cons,
        List.map_nil, opVal_lowTok]
      rw [← List.append_assoc (termOut t2), iht3]
  | tMk f tail ihf ihtail =>
    simp only [ParseP] at ihf ihtail ⊢
    obtain ⟨ihtail1, ihtail2⟩ := ihtail
    refine ⟨?_, ?_, ?_⟩
    · intro st out rest hProp hHigh hR
      simp only [gtokens, List.append_assoc]
      rw [ihf st out (gtokens tail ++ rest) hProp
        (restOK_termTail tail rest hR)]
      have := ihtail1 [] st (out ++ grpn f) rest (Or.inl rfl) hProp hHigh hR
      simp only [List.nil_append] at this
      rw [this]
      simp [termPend, termOut, List.append_assoc]
    · exact (ihtail2 [] (Or.inl rfl)).1
    · have h2 := (ihtail2 [] (Or.inl rfl)).2
      simp only [termPend, termOut, grpn, List.append_assoc]
      rw [h2]
      simp
  | ttNil =>
    simp only [ParseP]
    refine ⟨?_, ?_⟩
    · intro hp st out rest hhp hProp hHigh hR
      simp [gtokens, ttPendF, ttOutF]
    · intro hp hhp
      constructor
      · simpa [ttPendF] using hhp
      · simp [ttOutF, ttPendF, grpn]
  | ttCons op f2 tail ihf ihtail =>
    simp only [ParseP] at ihf ihtail ⊢
    obtain ⟨ihtail1, ihtail2⟩ := ihtail
    refine ⟨?_, ?_⟩
    · intro hp st out rest hhp hProp hHigh hR
      simp only [gtokens, List.cons_append, List.append_assoc]
      rw [parseLoop_high op, highFlush_pend hp hhp st hHigh out]
      rw [ihf (highTok op :: st) (out ++ hp.map opVal)
        (gtokens tail ++ rest) (notProp_cons_high op st)
        (restOK_termTail tail rest hR)]
      have := ihtail1 [highTok op] st (out ++ hp.map opVal ++ grpn f2) rest
        (Or.inr ⟨op, rfl⟩) hProp hHigh hR
      simp only [List.singleton_append] at this
      rw [this]
      simp [ttPendF, ttOutF, List.append_assoc]
    · intro hp hhp
      have h2 := ihtail2 [highTok op] (Or.inr ⟨op, rfl⟩)
      refine ⟨by simpa [ttPendF] using h2.1, ?_⟩
      simp only [ttOutF, ttPendF, grpn, List.append_assoc]
      rw [h2.2]
      simp [opVal_highTok]
  | fNum q =>
    simp only [ParseP]
    intro st out rest hProp hR
    simp [gtokens, grpn, parseLoop]
  | fParen e ihe =>
    simp only [ParseP] at ihe ⊢
    obtain ⟨ihe1, ihe2, ihe3⟩ := ihe
    intro st out rest hProp hR
    simp only [gtokens, grpn, List.cons_append, List.append_assoc,
      List.singleton_append, List.nil_append]
    have hpush : parseLoop
        (Token.LeftParenthesis :: (gtokens e ++ Token.RightParenthesis :: rest))
        st out
        = parseLoop (gtokens e ++ Token.RightParenthesis :: rest)
            (Token.LeftParenthesis :: st) out := rfl
    rw [hpush, ihe1 (Token.LeftParenthesis :: st) out
      (Token.RightParenthesis :: rest) (Or.inr rfl) (restOK_rparen rest)]
    rw [parseLoop_rparen_ok _ _ _
      (rparenPop_ops (exprPend e) ihe2 st hProp (out ++ exprOut e)) rest]
    rw [List.append_assoc, ihe3]
  | fCall f as ihas =>
    simp only [ParseP] at ihas ⊢
    intro st out rest hProp hR
    simp only [gtokens, grpn, List.cons_append, List.append_assoc,
      List.singleton_append, List.nil_append]
    rw [parseLoop_prop_fn f _ (by simp) st out]
    have hpush : parseLoop
        (Token.LeftParenthesis :: (gtokens as ++ Token.RightParenthesis :: rest))
        (Token.Property f :: st) out
        = parseLoop (gtokens as ++ Token.RightParenthesis :: rest)
            (Token.LeftParenthesis :: Token.Property f :: st) out := rfl
    rw [hpush, ihas f st out rest hR]
    simp [List.append_assoc]
  | fVar v =>
    simp only [ParseP]
    intro st out rest hProp hR
    simp only [gtokens, grpn, List.singleton_append]
    exact parseLoop_prop_var v rest hR st out
  | aOne e ihe =>
    simp only [ParseP] at ihe ⊢
    obtain ⟨ihe1, ihe2, ihe3⟩ := ihe
    intro f st out rest hR
    simp only [gtokens, grpn]
    rw [ihe1 (Token.LeftParenthesis :: Token.Property f :: st) out
      (Token.RightParenthesis :: rest) (Or.inr rfl) (restOK_rparen rest)]
    rw [parseLoop_rparen_ok _ _ _
      (rparenPop_fun (exprPend e) ihe2 f st (out ++ exprOut e)) rest]
    simp only [List.append_assoc]
    rw [← List.append_assoc (exprOut e), ihe3]
  | aMore e as ihe ihas =>
    simp only [ParseP] at ihe ihas ⊢
    obtain ⟨ihe1, ihe2, ihe3⟩ := ihe
    intro f st out rest hR
    simp only [gtokens, grpn, List.append_assoc, List.cons_append]
    rw [ihe1 (Token.LeftParenthesis :: Token.Property f :: st) out
      (Token.Comma :: (gtokens as ++ Token.RightParenthesis :: rest))
      (Or.inr rfl) (restOK_comma _)]
    rw [parseLoop_comma_ok _ _ _
      (commaPop_ops (exprPend e) ihe2 (Token.Property f :: st)
        (out ++ exprOut e)) _]
    have : out ++ exprOut e ++ (exprPend e).map opVal = out ++ grpn e := by
      rw [List.append_assoc, ihe3]
    rw [this, ihas f st (out ++ grpn e) rest hR]
    simp [List.append_assoc]

/-! ## Structural facts and the parser round-trip -/

theorem auxP_all : ∀ {k : GKind} (g : Gram k), AuxP k g := by
  intro k g
  induction g with
  | eMk t tail iht ihtail =>
    simp only [AuxP] at iht ⊢
    simp only [grpn]
    intro h
    exact iht (List.append_eq_nil.mp h).1
  | etNil => trivial
  | etCons op t tail iht ihtail => trivial
  | tMk f tail ihf ihtail =>
    simp only [AuxP] at ihf ⊢
    simp only [grpn]
    intro h
    exact ihf (List.append_eq_nil.mp h).1
  | ttNil => trivial
  | ttCons op f tail ihf ihtail => trivial
  | fNum q => simp [AuxP, grpn]
  | fParen e ihe => simpa [AuxP, grpn] using ihe
  | fCall f as ihas => simp [AuxP, grpn]
  | fVar v => simp [AuxP, grpn]
  | aOne e ihe => intro fns vars; simp [geval, argsLen]
  | aMore e as ihe ihas =>
    intro fns vars
    simp only [geval, argsLen, List.length_cons]
    rw [ihas fns vars]
    omega

theorem grpn_expr_ne_nil (e : Gram .expr) : grpn e ≠ [] := auxP_all e

theorem geval_args_length (fns : List Function) (vars : List Variable)
    (as : Gram .args) : (geval fns vars as).length = argsLen as :=
  auxP_all as fns vars

/-- The parser maps the infix rendering of any derivation to its
postfix rendering. -/
theorem parse_gtokens (e : Gram .expr) :
    parseTokens (gtokens e) = .ok (grpn e) := by
  have h := parseP_all e
  simp only [ParseP] at h
  obtain ⟨h1, h2, h3⟩ := h
  have hloop := h1 [] [] [] (Or.inl rfl) restOK_nil
  simp only [List.append_nil, List.nil_append] at hloop
  have hdrain : parseLoop ([] : List Token) (exprPend e) (exprOut e)
      = .ok (grpn e, []) := by
    simp only [parseLoop]
    rw [drainAll_ops (exprPend e) h2 (exprOut e), h3]
  have hfull := hloop.trans hdrain
  simp only [parseTokens, hfull]
  simp [grpn_expr_ne_nil e]

/-! ## Postfix execution correctness -/

theorem execPass_append (fns : List Function) (vars : List Variable)
    (xs : List Value) : ∀ ys st st', execPass fns vars xs st = .ok st' →
    execPass fns vars (xs ++ ys) st = execPass fns vars ys st' := by
  induction xs with
  | nil =>
    intro ys st st' h
    simp only [execPass] at h
    injection h with h
    subst h
    simp
  | cons v xs ih =>
    intro ys st st' h
    simp only [execPass] at h ⊢
    rcases hv : execStep fns vars v st with e | st2 <;> rw [hv] at h
    · exact absurd h (by simp)
    · exact ih ys st2 st' h

theorem execStep_low (fns : List Function) (vars : List Variable)
    (op : LowOp) (r l : ℚ) (st : List ℚ) :
    execStep fns vars (lowVal op) (r :: l :: st)
      = .ok (lowApply op l r :: st) := by
  cases op <;> rfl

theorem execStep_high (fns : List Function) (vars : List Variable)
    (h : HighOp) (r l : ℚ) (st : List ℚ) :
    execStep fns vars (highVal h) (r :: l :: st)
      = .ok (highApply h l r :: st) := by
  cases h <;> rfl

theorem popMany_exact : ∀ (l st : List ℚ),
    popMany l.length (l ++ st) = .ok (l, st) := by
  intro l
  induction l with
  | nil => intro st; rfl
  | cons v l ih =>
    intro st
    simp only [List.length_cons, List.cons_append]
    simp [popMany, ih st]

theorem execP_all (fns : List Function) (vars : List Variable) :
    ∀ {k : GKind} (g : Gram k), ExecP fns vars k g := by
  intro k g
  induction g with
  | eMk t tail iht ihtail =>
    simp only [ExecP] at iht ihtail ⊢
    intro hwf st
    simp only [gwf, Bool.and_eq_true] at hwf
    simp only [grpn, geval]
    rw [execPass_append fns vars _ _ _ _ (iht hwf.1 st)]
    exact ihtail hwf.2 _ st
  | etNil =>
    simp only [ExecP]
    intro _ acc st
    simp [grpn, geval, execPass]
  | etCons op t tail iht ihtail =>
    simp only [ExecP] at iht ihtail ⊢
    intro hwf acc st
    simp only [gwf, Bool.and_eq_true] at hwf
    simp only [grpn, geval, List.append_assoc]
    rw [execPass_append fns vars _ _ _ _ (iht hwf.1 (acc :: st))]
    have hstep : execPass fns vars (lowVal op :: grpn tail)
        (geval fns vars t :: acc :: st)
        = execPass fns vars (grpn tail)
            (lowApply op acc (geval fns vars t) :: st) := by
      simp only [execPass, execStep_low]
    simp only [List.singleton_append] at hstep ⊢
    rw [hstep]
    exact ihtail hwf.2 _ st
  | tMk f tail ihf ihtail =>
    simp only [ExecP] at ihf ihtail ⊢
    intro hwf st
    simp only [gwf, Bool.and_eq_true] at hwf
    simp only [grpn, geval]
    rw [execPass_append fns vars _ _ _ _ (ihf hwf.1 st)]
    exact ihtail hwf.2 _ st
  | ttNil =>
    simp only [ExecP]
    intro _ acc st
    simp [grpn, geval, execPass]
  | ttCons op f tail ihf ihtail =>
    simp only [ExecP] at ihf ihtail ⊢
    intro hwf acc st
    simp only [gwf, Bool.and_eq_true] at hwf
    simp only [grpn, geval, List.append_assoc]
    rw [execPass_append fns vars _ _ _ _ (ihf hwf.1 (acc :: st))]
    have hstep : execPass fns vars (highVal op :: grpn tail)
        (geval fns vars f :: acc :: st)
        = execPass fns vars (grpn tail)
            (highApply op acc (geval fns vars f) :: st) := by
      simp only [execPass, execStep_high]
    simp only [List.singleton_append] at hstep ⊢
    rw [hstep]
    exact ihtail hwf.2 _ st
  | fNum q =>
    simp only [ExecP]
    intro _ st
    simp [grpn, geval, execPass, execStep]
  | fParen e ihe =>
    simp only [ExecP] at ihe ⊢
    intro hwf st
    simp only [gwf] at hwf
    simp only [grpn, geval]
    exact ihe hwf st
  | fCall f as ihas =>
    simp only [ExecP] at ihas ⊢
    intro hwf st
    simp only [gwf, Bool.and_eq_true] at hwf
    obtain ⟨hfn, hwfas⟩ := hwf
    rcases hfind : findFunc fns f with _ | fn
    · rw [hfind] at hfn; simp at hfn
    · rw [hfind] at hfn
      have hcount : fn.argsCount = argsLen as := by simpa using hfn
      simp only [grpn, geval, hfind]
      rw [execPass_append fns vars _ _ _ _ (ihas hwfas st)]
      have hlen : ((geval fns vars as).reverse).length = fn.argsCount := by
        rw [List.length_reverse, geval_args_length, hcount]
      have hpop : popMany fn.argsCount ((geval fns vars as).reverse ++ st)
          = .ok ((geval fns vars as).reverse, st) := by
        rw [← hlen]
        exact popMany_exact _ st
      have hcalc : fn.calc (geval fns vars as)
          = .ok (fn.handler (geval fns vars as)) := by
        simp only [Function.calc, geval_args_length, hcount]
        simp
      simp only [execPass, execStep, hfind, hpop, List.reverse_reverse,
        hcalc]
  | fVar v =>
    simp only [ExecP]
    intro hwf st
    simp only [gwf] at hwf
    rcases hfind : findVar vars v with _ | vv
    · rw [hfind] at hwf; simp at hwf
    · simp only [grpn, geval, hfind, execPass, execStep]
  | aOne e ihe =>
    simp only [ExecP] at ihe ⊢
    intro hwf st
    simp only [gwf] at hwf
    simp only [grpn, geval, List.reverse_singleton, List.singleton_append]
    exact ihe hwf st
  | aMore e as ihe ihas =>
    simp only [ExecP] at ihe ihas ⊢
    intro hwf st
    simp only [gwf, Bool.and_eq_true] at hwf
    simp only [grpn, geval]
    rw [execPass_append fns vars _ _ _ _ (ihe hwf.1 st)]
    rw [ihas hwf.2 (geval fns vars e :: st)]
    simp

/-- Executing the postfix rendering of a well-formed derivation yields
its reference value. -/
theorem execute_grpn (fns : List Function) (vars : List Variable)
    (e : Gram .expr) (h : gwf fns vars e = true) :
    execute (grpn e) fns vars = .ok (geval fns vars e) := by
  have hp := execP_all fns vars e
  simp only [ExecP] at hp
  have := hp h []
  simp only [execute, this]

/-! ## Purely numeric derivations -/

theorem numP_all : ∀ {k : GKind} (g : Gram k), NumP k g := by
  intro k g
  induction g with
  | eMk t tail iht ihtail =>
    simp only [NumP] at iht ihtail ⊢
    intro h fns vars fns2 vars2
    simp only [gnumeric, Bool.and_eq_true] at h
    obtain ⟨w1, e1⟩ := iht h.1 fns vars fns2 vars2
    obtain ⟨w2, e2⟩ := ihtail h.2 fns vars fns2 vars2
    refine ⟨by simp [gwf, w1, w2], ?_⟩
    simp only [geval]
    rw [e1]
    exact e2 _
  | etNil =>
    simp only [NumP]
    intro _ _ _ _ _
    exact ⟨rfl, fun acc => rfl⟩
  | etCons op t tail iht ihtail =>
    simp only [NumP] at iht ihtail ⊢
    intro h fns vars fns2 vars2
    simp only [gnumeric, Bool.and_eq_true] at h
    obtain ⟨w1, e1⟩ := iht h.1 fns vars fns2 vars2
    obtain ⟨w2, e2⟩ := ihtail h.2 fns vars fns2 vars2
    refine ⟨by simp [gwf, w1, w2], ?_⟩
    intro acc
    simp only [geval]
    rw [e1]
    exact e2 _
  | tMk f tail ihf ihtail =>
    simp only [NumP] at ihf ihtail ⊢
    intro h fns vars fns2 vars2
    simp only [gnumeric, Bool.and_eq_true] at h
    obtain ⟨w1, e1⟩ := ihf h.1 fns vars fns2 vars2
    obtain ⟨w2, e2⟩ := ihtail h.2 fns vars fns2 vars2
    refine ⟨by simp [gwf, w1, w2], ?_⟩
    simp only [geval]
    rw [e1]
    exact e2 _
  | ttNil =>
    simp only [NumP]
    intro _ _ _ _ _
    exact ⟨rfl, fun acc => rfl⟩
  | ttCons op f tail ihf ihtail =>
    simp only [NumP] at ihf ihtail ⊢
    intro h fns vars fns2 vars2
    simp only [gnumeric, Bool.and_eq_true] at h
    obtain ⟨w1, e1⟩ := ihf h.1 fns vars fns2 vars2
    obtain ⟨w2, e2⟩ := ihtail h.2 fns vars fns2 vars2
    refine ⟨by simp [gwf, w1, w2], ?_⟩
    intro acc
    simp only [geval]
    rw [e1]
    exact e2 _
  | fNum q =>
    simp only [NumP]
    intro _ _ _ _ _
    exact ⟨rfl, rfl⟩
  | fParen e ihe =>
    simp only [NumP] at ihe ⊢
    intro h fns vars fns2 vars2
    simp only [gnumeric] at h
    obtain ⟨w1, e1⟩ := ihe h fns vars fns2 vars2
    exact ⟨by simpa [gwf] using w1, by simpa [geval] using e1⟩
  | fCall f as ihas =>
    simp only [NumP]
    intro h
    simp [gnumeric] at h
  | fVar v =>
    simp only [NumP]
    intro h
    simp [gnumeric] at h
  | aOne e ihe =>
    simp only [NumP] at ihe ⊢
    intro h fns vars fns2 vars2
    simp only [gnumeric] at h
    obtain ⟨w1, e1⟩ := ihe h fns vars fns2 vars2
    exact ⟨by simpa [gwf] using w1, by simp [geval, e1]⟩
  | aMore e as ihe ihas =>
    simp only [NumP] at ihe ihas ⊢
    intro h fns vars fns2 vars2
    simp only [gnumeric, Bool.and_eq_true] at h
    obtain ⟨w1, e1⟩ := ihe h.1 fns vars fns2 vars2
    obtain ⟨w2, e2⟩ := ihas h.2 fns vars fns2 vars2
    exact ⟨by simp [gwf, w1, w2], by simp [geval, e1, e2]⟩

/-! ## Lookup in an appended function table -/

theorem find?_append_left (l1 l2 : List Function) (p : Function → Bool)
    (h : (l1.find? p).isSome = true) :
    (l1 ++ l2).find? p = l1.find? p := by
  induction l1 with
  | nil => simp at h
  | cons f l1 ih =>
    by_cases hp : p f = true
    · simp [List.find?_cons_of_pos, hp]
    · rw [List.find?_cons_of_neg _ hp] at h
      rw [List.cons_append, List.find?_cons_of_neg _ hp,
        List.find?_cons_of_neg _ hp]
      exact ih h

/-! ## fmod sign (Rust `%` on `f64` keeps the dividend's sign) -/

theorem fmodQ_nonneg (a b : ℚ) (ha : 0 ≤ a) : 0 ≤ fmodQ a b := by
  unfold fmodQ ratTrunc
  rcases eq_or_ne b 0 with rfl | hb
  · simpa using ha
  rcases lt_or_gt_of_ne hb with hneg | hpos
  · have hq : a / b ≤ 0 := div_nonpos_of_nonneg_of_nonpos ha hneg.le
    by_cases h0 : 0 ≤ a / b
    · have hz : a / b = 0 := le_antisymm hq h0
      rw [if_pos h0, hz]
      simpa using ha
    · rw [if_neg h0]
      have hce : a / b ≤ ((⌈a / b⌉ : ℤ) : ℚ) := Int.le_ceil _
      have hle : b * ((⌈a / b⌉ : ℤ) : ℚ) ≤ b * (a / b) :=
        mul_le_mul_of_nonpos_left hce hneg.le
      rw [mul_comm b (a / b), div_mul_cancel₀ a hb] at hle
      linarith
  · have hq : 0 ≤ a / b := div_nonneg ha hpos.le
    rw [if_pos hq]
    have hfl : ((⌊a / b⌋ : ℤ) : ℚ) ≤ a / b := Int.floor_le _
    have hle : b * ((⌊a / b⌋ : ℤ) : ℚ) ≤ b * (a / b) :=
      mul_le_mul_of_nonneg_left hfl hpos.le
    rw [mul_comm b (a / b), div_mul_cancel₀ a hb] at hle
    linarith

theorem fmodQ_nonpos (a b : ℚ) (ha : a ≤ 0) : fmodQ a b ≤ 0 := by
  unfold fmodQ ratTrunc
  rcases eq_or_ne b 0 with rfl | hb
  · simpa using ha
  rcases lt_or_gt_of_ne hb with hneg | hpos
  · have hq : 0 ≤ a / b := div_nonneg_of_nonpos ha hneg.le
    rw [if_pos hq]
    have hfl : ((⌊a / b⌋ : ℤ) : ℚ) ≤ a / b := Int.floor_le _
    have hle : b * (a / b) ≤ b * ((⌊a / b⌋ : ℤ) : ℚ) :=
      mul_le_mul_of_nonpos_left hfl hneg.le
    rw [mul_comm b (a / b), div_mul_cancel₀ a hb] at hle
    linarith
  · have hq : a / b ≤ 0 := div_nonpos_of_nonpos_of_nonneg ha hpos.le
    by_cases h0 : 0 ≤ a / b
    · have hz : a / b = 0 := le_antisymm hq h0
      rw [if_pos h0, hz]
      simpa using ha
    · rw [if_neg h0]
      have hce : a / b ≤ ((⌈a / b⌉ : ℤ) : ℚ) := Int.le_ceil _
      have hle : b * (a / b) ≤ b * ((⌈a / b⌉ : ℤ) : ℚ) :=
        mul_le_mul_of_nonneg_left hce hpos.le
      rw [mul_comm b (a / b), div_mul_cancel₀ a hb] at hle
      linarith

/-! ## Undefined names force an evaluation error -/

theorem execPass_undefined (fns : List Function) (vars : List Variable) :
    ∀ (vs : List Value) (st : List ℚ),
    namesDefined vs fns vars = false →
    ∃ e, execPass fns vars vs st = .error e := by
  intro vs
  induction vs with
  | nil => intro st h; simp [namesDefined] at h
  | cons v tl ih =>
    intro st h
    rcases hstep : execStep fns vars v st with er | st2
    · exact ⟨er, by simp [execPass, hstep]⟩
    · have hhead : nameDefined fns vars v = true := by
        rcases v with q | f | x | _ | _ | _ | _ | _ | _ | _ | _ | _ | _ | _
        case Function =>
          rcases hfind : findFunc fns f with _ | fn
          · simp only [execStep, hfind] at hstep
            exact absurd hstep (by simp)
          · simp [nameDefined, hfind]
        case Variable =>
          rcases hfind : findVar vars x with _ | vv
          · simp only [execStep, hfind] at hstep
            exact absurd hstep (by simp)
          · simp [nameDefined, hfind]
        all_goals rfl
      have htl : namesDefined tl fns vars = false := by
        have h2 := h
        simp only [namesDefined, List.all_cons, hhead, Bool.true_and] at h2
        exact h2
      obtain ⟨e, he⟩ := ih st2 htl
      exact ⟨e, by simp [execPass, hstep, he]⟩

/-! ## The arity check in `Function::calc` is redundant inside `execute` -/

theorem popMany_length : ∀ (n : Nat) (st l st2 : List ℚ),
    popMany n st = .ok (l, st2) → l.length = n := by
  intro n
  induction n with
  | zero =>
    intro st l st2 h
    simp only [popMany, Except.ok.injEq, Prod.mk.injEq] at h
    rw [← h.1]
    rfl
  | succ n ih =>
    intro st l st2 h
    rcases st with _ | ⟨v, st⟩
    · simp [popMany] at h
    · simp only [popMany] at h
      rcases hm : popMany n st with er | p <;> rw [hm] at h
      · simp at h
      · obtain ⟨l2, st3⟩ := p
        simp only [Except.ok.injEq, Prod.mk.injEq] at h
        rw [← h.1]
        simp [ih st l2 st3 hm]

theorem execStep_eq_NC (fns : List Function) (vars : List Variable)
    (v : Value) (st : List ℚ) :
    execStep fns vars v st = execStepNC fns vars v st := by
  rcases v with q | f | x | _ | _ | _ | _ | _ | _ | _ | _ | _ | _ | _
  case Function =>
    simp only [execStep, execStepNC]
    rcases hfind : findFunc fns f with _ | fn
    · simp
    · simp only []
      rcases hpop : popMany fn.argsCount st with er | p
      · simp
      · obtain ⟨l, st2⟩ := p
        have hlen : l.length = fn.argsCount := popMany_length _ _ _ _ hpop
        have hcalc : fn.calc l.reverse = .ok (fn.handler l.reverse) := by
          simp [Function.calc, hlen]
        simp [hcalc]
  all_goals rfl

theorem execPass_eq_NC (fns : List Function) (vars : List Variable) :
    ∀ (vs : List Value) (st : List ℚ),
    execPass fns vars vs st = execPassNC fns vars vs st := by
  intro vs
  induction vs with
  | nil => intro st; rfl
  | cons v tl ih =>
    intro st
    simp only [execPass, execPassNC, execStep_eq_NC]
    rcases execStepNC fns vars v st with er | st2
    · rfl
    · exact ih st2

theorem execute_eq_NC (values : List Value) (fns : List Function)
    (vars : List Variable) : execute values fns vars = executeNC values fns vars := by
  simp only [execute, executeNC, execPass_eq_NC]

/-! ## Character-class facts for the lexer claims -/

theorem upperC_facts (c : Char) (h : isUpperC c = true) :
    isWsC c = false ∧ c ≠ '(' ∧ isDigitC c = false ∧ c ≠ '+' ∧ c ≠ '-'
    ∧ isAlphaC c = true := by
  have h2 : 65 ≤ c.toNat ∧ c.toNat ≤ 90 := by
    simpa [isUpperC] using h
  refine ⟨?_, ?_, ?_, ?_, ?_, ?_⟩
  · simp only [isWsC, Bool.or_eq_false_iff, decide_eq_false_iff_not]
    omega
  · rintro rfl; exact absurd h2 (by decide)
  · simp only [isDigitC, Bool.and_eq_false_iff, decide_eq_false_iff_not]
    omega
  · rintro rfl; exact absurd h2 (by decide)
  · rintro rfl; exact absurd h2 (by decide)
  · simp [isAlphaC, h]

theorem lowerC_facts (c : Char) (h : isLowerC c = true) :
    isWsC c = false ∧ c ≠ '(' ∧ isDigitC c = false ∧ c ≠ '+' ∧ c ≠ '-'
    ∧ isUpperC c = false ∧ isAlphaC c = true := by
  have h2 : 97 ≤ c.toNat ∧ c.toNat ≤ 122 := by
    simpa [isLowerC] using h
  refine ⟨?_, ?_, ?_, ?_, ?_, ?_, ?_⟩
  · simp only [isWsC, Bool.or_eq_false_iff, decide_eq_false_iff_not]
    omega
  · rintro rfl; exact absurd h2 (by decide)
  · simp only [isDigitC, Bool.and_eq_false_iff, decide_eq_false_iff_not]
    omega
  · rintro rfl; exact absurd h2 (by decide)
  · rintro rfl; exact absurd h2 (by decide)
  · simp only [isUpperC, Bool.and_eq_false_iff, decide_eq_false_iff_not]
    omega
  · simp [isAlphaC, isLowerC, h2]

theorem alphaC_not_ws (c : Char) (h : isAlphaC c = true) : isWsC c = false := by
  rcases Bool.or_eq_true_iff.mp (by simpa [isAlphaC] using h) with hu | hl
  · exact (upperC_facts c hu).1
  · exact (lowerC_facts c hl).1

theorem readWS_not_ws (c : Char) (s2 : List Char) (h : isWsC c = false) :
    readWS (c :: s2) = ([], c :: s2) := by
  simp [readWS, h]

theorem lexProperty_alpha (c : Char) (s2 : List Char) (h : isAlphaC c = true) :
    lexProperty (c :: s2)
      = .ok ([Token.Property ⟨(c :: s2).takeWhile isAlphaC⟩],
        (c :: s2).dropWhile isAlphaC) := by
  simp only [lexProperty, readWS_not_ws c s2 (alphaC_not_ws c h)]
  rw [List.takeWhile_cons_of_pos h]
  simp

theorem lexFunction_err (fuel : Nat) (c : Char) (s2 : List Char)
    (hup : isUpperC c = true)
    (hnp : ((c :: s2).dropWhile isAlphaC).head? ≠ some '(') :
    ∃ er, lexFunction (fuel + 1) (c :: s2) = .error er := by
  have halpha : isAlphaC c = true := (upperC_facts c hup).2.2.2.2.2
  simp only [lexFunction, lexProperty_alpha c s2 halpha]
  rcases hd : (c :: s2).dropWhile isAlphaC with _ | ⟨c2, s3⟩
  · exact ⟨⟨"error: unexpected end of line"⟩, rfl⟩
  · rw [hd] at hnp
    have hc2 : ¬(c2 = '(') := by
      intro hc
      exact hnp (by rw [hc]; rfl)
    exact ⟨⟨"error: unexpected char after property"⟩, by simp [hc2]⟩

theorem lexFactor_upper_err (fuel : Nat) (c : Char) (s2 : List Char)
    (hup : isUpperC c = true)
    (hnp : ((c :: s2).dropWhile isAlphaC).head? ≠ some '(') :
    ∃ er, lexFactor (fuel + 2) (c :: s2) = .error er := by
  obtain ⟨hws, hlp, hdig, hplus, hminus, _⟩ := upperC_facts c hup
  obtain ⟨er, her⟩ := lexFunction_err fuel c s2 hup hnp
  refine ⟨er, ?_⟩
  show lexFactor ((fuel + 1) + 1) (c :: s2) = .error er
  simp only [lexFactor, readWS_not_ws c s2 hws]
  rw [if_neg hlp, if_neg (by simp [hdig, hplus, hminus]), if_pos hup, her]

theorem tokenize_upper_err (s : String) (c : Char)
    (hhead : s.toList.head? = some c) (hup : isUpperC c = true)
    (hnp : (s.toList.dropWhile isAlphaC).head? ≠ some '(') :
    (tokenize s).isOk = false := by
  rcases hl : s.toList with _ | ⟨c0, s2⟩
  · rw [hl] at hhead; simp at hhead
  · rw [hl] at hhead hnp
    have hc0 : c0 = c := by simpa using hhead
    subst hc0
    obtain ⟨er, her⟩ :=
      lexFactor_upper_err (4 * (c0 :: s2).length + 12) c0 s2 hup hnp
    have h2 : lexTerm (4 * (c0 :: s2).length + 15) (c0 :: s2) = .error er := by
      show lexTerm ((4 * (c0 :: s2).length + 14) + 1) (c0 :: s2) = .error er
      simp only [lexTerm]
      have h3 : lexFactor (4 * (c0 :: s2).length + 14) (c0 :: s2)
          = .error er := her
      rw [h3]
    have h1 : lexExpr (fuelFor (c0 :: s2)) (c0 :: s2) = .error er := by
      show lexExpr ((4 * (c0 :: s2).length + 15) + 1) (c0 :: s2) = .error er
      simp only [lexExpr]
      rw [h2]
    have hd2 : s.data = c0 :: s2 := hl
    simp [tokenize, hd2, h1, Except.isOk, Except.toBool]

theorem lexFactor_lower (fuel : Nat) (c : Char) (s2 : List Char)
    (hlow : isLowerC c = true) :
    lexFactor (fuel + 1) (c :: s2)
      = .ok ([Token.Property ⟨(c :: s2).takeWhile isAlphaC⟩],
        (c :: s2).dropWhile isAlphaC) := by
  obtain ⟨hws, hlp, hdig, hplus, hminus, hupper, halpha⟩ := lowerC_facts c hlow
  simp only [lexFactor, readWS_not_ws c s2 hws]
  rw [if_neg hlp, if_neg (by simp [hdig, hplus, hminus]),
    if_neg (by simp [hupper]), if_pos hlow]
  simp only [lexVariable, lexProperty_alpha c s2 halpha]
  simp

/-! ## The claims -/

/-- C1 (counterexample): the round-trip law fails as stated.  The string
`"Add(2)"` tokenizes and parses successfully, every name its postfix
sequence references is defined in the default tables (`Add` is
reserved), yet `Processor::execute` fails (stack underflow while
popping the two declared arguments of `Add`). -/
theorem spec_c1_counterexample :
    tokenize "Add(2)" = .ok [Token.Property "Add", Token.LeftParenthesis,
      Token.Number 2, Token.RightParenthesis]
    ∧ parseTokens [Token.Property "Add", Token.LeftParenthesis,
        Token.Number 2, Token.RightParenthesis]
      = .ok [Value.Number 2, Value.Function "Add"]
    ∧ namesDefined [Value.Number 2, Value.Function "Add"]
        (allFunctions []) [] = true
    ∧ execute [Value.Number 2, Value.Function "Add"] (allFunctions []) []
      = .error ⟨"error: syntax error"⟩ :=
  ⟨by with_unfolding_all rfl, by with_unfolding_all rfl,
   by with_unfolding_all rfl, by with_unfolding_all rfl⟩

/-- C1 (amended): for an expression string accepted by `tokenize` whose
token stream is the rendering of a grammar derivation `e`, if the tables
define every referenced variable name and define every referenced
function name with declared arity equal to the argument count at each of
its call sites (`gwf`), then parsing succeeds with the postfix rendering
of `e` and evaluation reduces the operand stack to exactly one value:
`parse_formula` returns `Ok` with the reference value of `e`. -/
theorem spec_c1 (s : String) (ts : List Token) (e : Gram .expr)
    (fns : List Function) (vars : List Variable)
    (htok : tokenize s = .ok ts) (hts : gtokens e = ts)
    (hwf : gwf (allFunctions fns) vars e = true) :
    parseTokens ts = .ok (grpn e)
    ∧ execute (grpn e) (allFunctions fns) vars
        = .ok (geval (allFunctions fns) vars e)
    ∧ parseFormula s fns vars = .ok (geval (allFunctions fns) vars e) := by
  subst hts
  have hp := parse_gtokens e
  have hx := execute_grpn (allFunctions fns) vars e hwf
  exact ⟨hp, hx, by simp only [parseFormula, htok, hp, hx]⟩

/-- C1 witness: the amended round trip at `"hoge + 1"` with variable
`hoge = 5`. -/
theorem spec_c1_witness :
    parseFormula "hoge + 1" [] [⟨"hoge", 5⟩] = .ok 6 := by
  with_unfolding_all
    exact (spec_c1 "hoge + 1"
      [Token.Property "hoge", Token.Plus, Token.Number 1]
      (Gram.eMk (.tMk (.fVar "hoge") .ttNil)
        (.etCons .plus (.tMk (.fNum 1) .ttNil) .etNil))
      [] [⟨"hoge", 5⟩] rfl rfl rfl).2.2

/-- C2 (counterexample): a caller-supplied function named `Add` does not
shadow the reserved `Add`.  With a caller table whose `Add` handler
returns `100` on every input, `parse_formula "Add(1, 2)"` still returns
`3`, the reserved handler's result. -/
theorem spec_c2_counterexample :
    parseFormula "Add(1, 2)" [⟨"Add", 2, fun _ => 100⟩] [] = .ok 3
    ∧ (3 : ℚ) ≠ 100 :=
  ⟨by with_unfolding_all rfl, by norm_num⟩

/-- C2 (amended): the reserved functions Add, Sub, Mul, Div, Mod and If
are present in the table of every `parse_formula` call, and lookup is
first-match over the reserved set with caller-supplied functions
appended after it — so for any name the reserved set defines, the lookup
result is the reserved entry and a caller-supplied entry of the same
name is never the one invoked (the reserved function shadows the
caller's, not the other way round). -/
theorem spec_c2 (fns : List Function) (name : String)
    (h : (findFunc reservedFunctions name).isSome = true) :
    findFunc (allFunctions fns) name = findFunc reservedFunctions name
    ∧ ∀ n, n ∈ (["Add", "Sub", "Mul", "Div", "Mod", "If"] : List String) →
      (findFunc (allFunctions fns) n).isSome = true := by
  constructor
  · exact find?_append_left reservedFunctions fns _ h
  · intro n hn
    fin_cases hn <;>
      simp only [findFunc, allFunctions] <;>
      rw [find?_append_left _ _ _ (by decide)] <;>
      decide

/-- C2 witness: lookup of `"Add"` through the full table with a
caller-supplied `Add` present returns the reserved entry. -/
theorem spec_c2_witness :
    findFunc (allFunctions [⟨"Add", 2, fun _ => 100⟩]) "Add"
      = findFunc reservedFunctions "Add" :=
  (spec_c2 [⟨"Add", 2, fun _ => 100⟩] "Add" (by decide)).1

/-- C3 (confirmed): for every purely numeric-literal expression (a
derivation with no function call and no variable; its operators are
`+ - % == != < > <= >=` in the single lower tier and `* /` in the
higher tier, both left-associative), `parse_formula` returns the
reference evaluation `pureEval` — standard exact evaluation under that
two-tier precedence — for any caller-supplied tables. -/
theorem spec_c3 (s : String) (ts : List Token) (e : Gram .expr)
    (fns : List Function) (vars : List Variable)
    (htok : tokenize s = .ok ts) (hts : gtokens e = ts)
    (hnum : gnumeric e = true) :
    parseFormula s fns vars = .ok (pureEval e) := by
  subst hts
  have hn := numP_all e
  simp only [NumP] at hn
  obtain ⟨hwf, heval⟩ := hn hnum (allFunctions fns) vars [] []
  have hp := parse_gtokens e
  have hx := execute_grpn (allFunctions fns) vars e hwf
  rw [heval] at hx
  simp only [parseFormula, htok, hp, hx, pureEval]

/-- C3 witness: `"1+2*3"` evaluates to `7` (the `*` tier binds
tighter). -/
theorem spec_c3_witness : parseFormula "1+2*3" [] [] = .ok 7 := by
  with_unfolding_all
    exact spec_c3 "1+2*3"
      [Token.Number 1, Token.Plus, Token.Number 2, Token.Asterisk,
       Token.Number 3]
      (Gram.eMk (.tMk (.fNum 1) .ttNil)
        (.etCons .plus (.tMk (.fNum 2) (.ttCons .mul (.fNum 3) .ttNil))
          .etNil))
      [] [] rfl rfl rfl

/-- C4 (confirmed): after the single pass of `Processor::execute`, a
one-value operand stack yields that value as `Ok`; any other stack
length yields the fatal `"error: syntax error"` and no partial result. -/
theorem spec_c4 (values : List Value) (fns : List Function)
    (vars : List Variable) (st : List ℚ)
    (h : execPass fns vars values [] = .ok st) :
    (∀ r, st = [r] → execute values fns vars = .ok r)
    ∧ (st.length ≠ 1 → execute values fns vars
        = .error ⟨"error: syntax error"⟩) := by
  constructor
  · intro r hr
    subst hr
    simp [execute, h]
  · intro hlen
    simp only [execute, h]
    rcases st with _ | ⟨a, _ | ⟨b, t⟩⟩
    · rfl
    · simp at hlen
    · rfl

/-- C4 witness: a one-value final stack returns `Ok`; a two-value final
stack is the fatal error. -/
theorem spec_c4_witness :
    execute [Value.Number 5] [] [] = .ok 5
    ∧ execute [Value.Number 3, Value.Number 4] [] []
      = .error ⟨"error: syntax error"⟩ :=
  ⟨(spec_c4 [Value.Number 5] [] [] [5] (by with_unfolding_all rfl)).1 5 rfl,
   (spec_c4 [Value.Number 3, Value.Number 4] [] [] [4, 3]
     (by with_unfolding_all rfl)).2 (by decide)⟩

/-- C5 (confirmed): a property is classified by its first character
only.  If the input starts with an uppercase letter and the character
after the maximal alphabetic prefix is not `(` (in particular if it is
whitespace), `tokenize` fails with a lexical error; if the first
character of a factor is lowercase, the property is read as a single
`Property` token with no constraint on the trailing context. -/
theorem spec_c5 :
    (∀ (s : String) (c : Char), s.toList.head? = some c →
      isUpperC c = true →
      (s.toList.dropWhile isAlphaC).head? ≠ some '(' →
      (tokenize s).isOk = false)
    ∧ (∀ (fuel : Nat) (c : Char) (s2 : List Char), isLowerC c = true →
      lexFactor (fuel + 1) (c :: s2)
        = .ok ([Token.Property ⟨(c :: s2).takeWhile isAlphaC⟩],
          (c :: s2).dropWhile isAlphaC)) :=
  ⟨tokenize_upper_err, fun fuel c s2 h => lexFactor_lower fuel c s2 h⟩

/-- C5 witness: `"Add + 2"` (uppercase property followed by whitespace)
fails tokenization, while lowercase `abc` in factor position is read as
a property token even when `(` follows. -/
theorem spec_c5_witness :
    (tokenize "Add + 2").isOk = false
    ∧ lexFactor 5 ['a', 'b', 'c', '(']
      = .ok ([Token.Property "abc"], ['(']) :=
  ⟨spec_c5.1 "Add + 2" 'A' rfl (by decide) (by decide),
   spec_c5.2 4 'a' ['b', 'c', '('] (by decide)⟩

/-- C6 (confirmed): `Lexer::number` rejects every consumed numeral whose
character string has length greater than one, first character `0` and
second character not `.`; `"012"` is a lexical error for the whole
tokenizer while `"0.5"` tokenizes. -/
theorem spec_c6 :
    (∀ s : List Char, 1 < (numTake ((readWS s).2)).length →
      (numTake ((readWS s).2)).head? = some '0' →
      (numTake ((readWS s).2)).get? 1 ≠ some '.' →
      lexNumber s = .error ⟨"error: invalid numeric string"⟩)
    ∧ tokenize "012" = .error ⟨"error: invalid numeric string"⟩
    ∧ tokenize "0.5" = .ok [Token.Number (1 / 2)] := by
  refine ⟨?_, by with_unfolding_all rfl, by with_unfolding_all rfl⟩
  intro s h1 h2 h3
  simp only [lexNumber]
  rw [if_pos ⟨h1, h2, h3⟩]

/-- C6 witness: the leading-zero rejection at the concrete literal
`"012"`. -/
theorem spec_c6_witness :
    lexNumber "012".toList = .error ⟨"error: invalid numeric string"⟩ :=
  spec_c6.1 "012".toList (by decide) (by decide) (by decide)

/-- C7 (confirmed): `%` is the exact floating-point remainder and keeps
the dividend's sign (for nonzero divisor); each comparison operator
yields exactly `1` or `0` by ordinary comparison with no tolerance; and
`parse_formula "(3 - 5) % 3"` returns `-2`. -/
theorem spec_c7 :
    (∀ a b : ℚ, b ≠ 0 →
      calcBinaryOperator a b Value.Percent = .ok (fmodQ a b)
      ∧ (0 ≤ a → 0 ≤ fmodQ a b) ∧ (a ≤ 0 → fmodQ a b ≤ 0))
    ∧ (∀ a b : ℚ,
        calcBinaryOperator a b Value.Equal = .ok (if a = b then 1 else 0)
        ∧ calcBinaryOperator a b Value.NotEqual
          = .ok (if a ≠ b then 1 else 0)
        ∧ calcBinaryOperator a b Value.LessThan
          = .ok (if a < b then 1 else 0)
        ∧ calcBinaryOperator a b Value.GreaterThan
          = .ok (if a > b then 1 else 0)
        ∧ calcBinaryOperator a b Value.LessThanOrEqual
          = .ok (if a ≤ b then 1 else 0)
        ∧ calcBinaryOperator a b Value.GreaterThanOrEqual
          = .ok (if a ≥ b then 1 else 0))
    ∧ parseFormula "(3 - 5) % 3" [] [] = .ok (-2) :=
  ⟨fun a b _ => ⟨rfl, fun ha => fmodQ_nonneg a b ha,
      fun ha => fmodQ_nonpos a b ha⟩,
   fun a b => ⟨rfl, rfl, rfl, rfl, rfl, rfl⟩,
   by with_unfolding_all rfl⟩

/-- C7 witness: the sign law at dividend `-2` and divisor `3`. -/
theorem spec_c7_witness :
    calcBinaryOperator (-2) 3 Value.Percent = .ok (fmodQ (-2) 3)
    ∧ fmodQ (-2) 3 ≤ 0 :=
  ⟨(spec_c7.1 (-2) 3 (by norm_num)).1,
   (spec_c7.1 (-2) 3 (by norm_num)).2.2 (by norm_num)⟩

/-- C8 (confirmed): an expression that tokenizes and parses but
references an undefined variable or function name fails at evaluation —
no default is substituted — and the reported error carries the
`Processor` stage tag. -/
theorem spec_c8 (s : String) (ts : List Token) (vs : List Value)
    (fns : List Function) (vars : List Variable)
    (htok : tokenize s = .ok ts) (hparse : parseTokens ts = .ok vs)
    (hund : namesDefined vs (allFunctions fns) vars = false) :
    errTypeOf (parseFormula s fns vars) = some ErrorType.Processor := by
  obtain ⟨e, he⟩ := execPass_undefined (allFunctions fns) vars vs [] hund
  have hex : execute vs (allFunctions fns) vars = .error e := by
    simp [execute, he]
  simp [parseFormula, htok, hparse, hex, errTypeOf]

/-- C8 witness: the undefined variable `foo` fails with the Processor
stage tag. -/
theorem spec_c8_witness :
    errTypeOf (parseFormula "foo" [] []) = some ErrorType.Processor :=
  spec_c8 "foo" [Token.Property "foo"] [Value.Variable "foo"] [] []
    (by with_unfolding_all rfl) (by with_unfolding_all rfl)
    (by with_unfolding_all rfl)

/-- C9 (confirmed): `execute` pops exactly `args_count` values (or fails
first with the underflow `"error: syntax error"`), so every argument
vector reaching `Function::calc` has exactly the declared length and the
arity-mismatch branch inside `calc` is unreachable from `execute`:
`execute` coincides with the variant whose arity check is removed.  A
postfix sequence supplying too few arguments is reported as the
underflow error, never as the args-count message. -/
theorem spec_c9 :
    (∀ (values : List Value) (fns : List Function) (vars : List Variable),
      execute values fns vars = executeNC values fns vars)
    ∧ execute [Value.Number 1, Value.Function "Add"] reservedFunctions []
      = .error ⟨"error: syntax error"⟩ :=
  ⟨execute_eq_NC, by with_unfolding_all rfl⟩

/-- C10 (confirmed): the leading-zero check inspects the first character
of the consumed literal string including its sign, so the signed literal
`"-012"` is accepted: it tokenizes to the single token `Number (-12)`
and `parse_formula` returns `-12`. -/
theorem spec_c10 :
    tokenize "-012" = .ok [Token.Number (-12)]
    ∧ lexNumber "-012".toList = .ok ([Token.Number (-12)], [])
    ∧ parseFormula "-012" [] [] = .ok (-12) :=
  ⟨by with_unfolding_all rfl, by with_unfolding_all rfl,
   by with_unfolding_all rfl⟩

end Formula
